import Mathlib

/-!
# sigreap: a shallow embedding of `sigreap.c`

The supervisor's two globals (`childpids`, `lastexitcode`), `errno` and the
lines it prints form the `State`.  Every answer of the operating system
(results of `sigprocmask`, `waitpid`, `open`, `read`, `kill`, `sigaction`,
`prctl`, `fork`, `execvp`) is an explicit input.  A call of `exit` is the
error side of `Except Halt`.

Machine model: Linux, LP64 (`unsigned long` has 64 bits, `pid_t` is a 32-bit
`int`), glibc wait-status macros, the "C" locale for `isspace`.  Signal
delivery is placed at `pause()`, the one point where the program waits for it.
-/

namespace SigReap

/-! ## Constants of the program and of the system headers -/

/-- The capacity of the registry: `#define NMAXPIDS 64`. -/
def NMAXPIDS : Nat := 64

/-- Number of the child-status signal in `<signal.h>` (Linux). -/
def SIGCHLD : Int := 17

/-- One more than the largest signal number, `<signal.h>` (Linux). -/
def NSIG : Nat := 65

/-- Error number of an invalid argument, `<errno.h>`. -/
def EINVAL : Int := 22

/-- Error number of "no child processes", `<errno.h>`. -/
def ECHILD : Int := 10

/-- Longest path, `<limits.h>` (Linux). -/
def PATH_MAX : Int := 4096

/-- The failure status of `<stdlib.h>`. -/
def EXIT_FAILURE : Int := 1

/-- Largest `unsigned long` (LP64). -/
def ULONG_MAX : Nat := 2 ^ 64 - 1

/-- Size of the local buffer `char children[NMAXPIDS*32]`. -/
def CHILDREN_SIZE : Nat := NMAXPIDS * 32

/-! ## Wait-status macros of `<sys/wait.h>` (glibc `bits/waitstatus.h`) -/

/-- Macro `WEXITSTATUS(status)`, which is `((status) & 0xff00) >> 8`. -/
def WEXITSTATUS (status : Nat) : Nat := (status &&& 0xff00) >>> 8

/-- Macro `WTERMSIG(status)`, which is `(status) & 0x7f`. -/
def WTERMSIG (status : Nat) : Nat := status &&& 0x7f

/-- Macro `WIFEXITED(status)`, which is `WTERMSIG(status) == 0`. -/
def WIFEXITED (status : Nat) : Bool := WTERMSIG status == 0

/-- The conversion `(signed char) n` of a non-negative `int`. -/
def signedChar (n : Nat) : Int :=
  if n % 256 < 128 then ((n % 256 : Nat) : Int) else ((n % 256 : Nat) : Int) - 256

/-- Macro `WIFSIGNALED(status)`, which is
`((signed char) (((status) & 0x7f) + 1) >> 1) > 0`. -/
def WIFSIGNALED (status : Nat) : Bool :=
  decide (0 < (signedChar ((status &&& 0x7f) + 1)) >>> (1 : Nat))

/-- Macro `WIFSTOPPED(status)`, which is `((status) & 0xff) == 0x7f`. -/
def WIFSTOPPED (status : Nat) : Bool := (status &&& 0xff) == 0x7f

/-- Macro `WIFCONTINUED(status)`, which is `(status) == 0xffff`. -/
def WIFCONTINUED (status : Nat) : Bool := status == 0xffff

/-! ## State, output and termination -/

/-- The lines the program prints and the calls it makes that a claim observes,
one constructor per call site of `info`, `err`, `perror`, `kill`, `pause`. -/
inductive Event where
  | reapStopCont (wpid : Int)
  | reapExit (wpid : Int) (exitCode : Int)
  | noChildren
  | childNumber (i : Nat) (children : List Nat)
  | ignoreChildren
  | handleSignal (signo : Int)
  | kill (pid : Int) (signo : Int)
  | perrorKill
  | perrorSigaction
  | pause
  deriving DecidableEq, Repr

/-- The globals of the program, `errno`, and what has been printed so far. -/
structure State where
  childpids : List Int
  lastexitcode : Int
  errno : Int
  log : List Event
  deriving DecidableEq, Repr

/-- The zero-initialised statics at program start. -/
def State.init : State :=
  { childpids := List.replicate (NMAXPIDS + 1) 0, lastexitcode := 0, errno := 0, log := [] }

/-- Append one event to the output. -/
def State.emit (st : State) (e : Event) : State :=
  { st with log := st.log ++ [e] }

/-- The ways the process stops running the program text. -/
inductive Halt where
  | exit (code : Int)
  | suspended
  | exec
  deriving DecidableEq, Repr

/-- The status the parent of the process sees for `exit(code)`: the low byte. -/
def exitStatus (code : Int) : Int := code % 256

/-- Function `die`: `int e = errno; perror(what); exit(-e);`. -/
def die {α : Type} (st : State) : Except Halt α :=
  let e := st.errno
  .error (.exit (-e))

/-- Function `block`; `fails` is the `errno` of a failing `sigprocmask`. -/
def block (fails : Option Int) (st : State) : Except Halt State :=
  match fails with
  | some e => die { st with errno := e }
  | none => pure st

/-- Function `unblock`; `fails` is the `errno` of a failing `sigprocmask`. -/
def unblock (fails : Option Int) (st : State) : Except Halt State :=
  match fails with
  | some e => die { st with errno := e }
  | none => pure st

/-! ## The reaper -/

/-- Function `reap`.  The list holds the results `(wpid, wstatus)` of the
successive `waitpid` calls; past its end `waitpid` reports no child. -/
def reap : List (Int × Nat) → State → State
  | [], st => { st with errno := ECHILD }
  | (wpid, wstatus) :: rest, st =>
    if 0 < wpid then
      if WIFSTOPPED wstatus || WIFCONTINUED wstatus then
        reap rest (st.emit (.reapStopCont wpid))
      else if WIFEXITED wstatus || WIFSIGNALED wstatus then
        let st1 := { st with lastexitcode := (WEXITSTATUS wstatus : Nat) }
        reap rest (st1.emit (.reapExit wpid st1.lastexitcode))
      else
        reap rest st
    else if wpid < 0 then { st with errno := ECHILD } else st

/-! ## `strtoul` and the conversion to `pid_t` -/

/-- The test `isspace` of the "C" locale on a byte. -/
def isspace (c : Nat) : Bool := c == 32 || (9 ≤ c && c ≤ 13)

/-- The test `isdigit` on a byte. -/
def isdigit (c : Nat) : Bool := 48 ≤ c && c ≤ 57

/-- Value of a run of decimal digit bytes, most significant first. -/
def digitsValue (ds : List Nat) : Nat :=
  ds.foldl (fun acc d => acc * 10 + (d - 48)) 0

/-- Library call `strtoul(s, &end, 10)` on the bytes from `s` up to the
terminating NUL (the end of the list).  It returns the value and `end - s`:
white space is skipped, one sign is accepted, the digits are read; without any
digit the value is 0 and `end = s`; a magnitude above `ULONG_MAX` gives
`ULONG_MAX`; a minus sign negates in `unsigned long`. -/
def strtoul (s : List Nat) : Nat × Nat :=
  let n := (s.takeWhile isspace).length
  let s1 := s.drop n
  let neg := s1.head? == some 45
  let k := if s1.head? == some 45 || s1.head? == some 43 then 1 else 0
  let ds := (s1.drop k).takeWhile isdigit
  if ds.isEmpty then (0, 0)
  else
    let acc := digitsValue ds
    let v := if acc > ULONG_MAX then ULONG_MAX
             else if neg then (2 ^ 64 - acc) % 2 ^ 64 else acc
    (v, n + k + ds.length)

/-- The conversion of an `unsigned long` to `pid_t` (32-bit `int`). -/
def toPid (v : Nat) : Int :=
  if v % 2 ^ 32 < 2 ^ 31 then ((v % 2 ^ 32 : Nat) : Int) else ((v % 2 ^ 32 : Nat) : Int) - 2 ^ 32

/-! ## Discovery -/

/-- The parse loop of `active`:
`while (end < stop && i < NMAXPIDS) { childpids[i++] = strtoul(ptr, &end, 10); ptr = end; }`.
Pointers are offsets into `children`.  The first argument bounds the number of
iterations; `NMAXPIDS` is enough because `i` grows with each one. -/
def parseLoop (children : List Nat) (stop : Nat) :
    Nat → Nat → Nat → Nat → List Int → Nat × List Int
  | 0, _, _, i, childpids => (i, childpids)
  | fuel + 1, ptr, endp, i, childpids =>
    if endp < stop ∧ i < NMAXPIDS then
      let r := strtoul (children.drop ptr)
      let endp1 := ptr + r.2
      parseLoop children stop fuel endp1 endp1 (i + 1) (childpids.set i (toPid r.1))
    else (i, childpids)

/-- What `read(cfd, &children, sizeof(children)-1)` answers: a failure with
its `errno`, or the bytes of the source, of which the buffer takes the first
`sizeof(children)-1`. -/
inductive ReadRes where
  | fail (errno : Int)
  | data (bytes : List Nat)
  deriving DecidableEq, Repr

/-- The return value `siz` of the `read`. -/
def ReadRes.siz : ReadRes → Int
  | .fail _ => -1
  | .data bytes => ((bytes.take (CHILDREN_SIZE - 1)).length : Nat)

/-- The content of the zero-initialised buffer after the `read`, up to the
first byte the `read` did not write. -/
def ReadRes.children : ReadRes → List Nat
  | .fail _ => []
  | .data bytes => bytes.take (CHILDREN_SIZE - 1)

/-- The answers of the operating system during one pass of the main loop. -/
structure Cycle where
  blockErr : Option Int
  waits : List (Int × Nat)
  openErr : Option Int
  read : ReadRes
  unblockErr : Option Int
  signals : List Int
  kill : Int → Int → Option Int

/-- Function `active`. -/
def active (c : Cycle) (st0 : State) : Except Halt (Bool × State) := do
  let st1 ← block c.blockErr st0
  let st2 := reap c.waits st1
  let st3 ← (match c.openErr with
    | some e => die { st2 with errno := e }
    | none => pure st2)
  let st4 := (match c.read with
    | .fail e => { st3 with errno := e }
    | .data _ => st3)
  let siz := c.read.siz
  let children := c.read.children
  if 1 > siz then
    let st5 ← unblock c.unblockErr (st4.emit .noChildren)
    pure (false, st5)
  else
    let stop := (siz - 1).toNat
    let r := parseLoop children stop NMAXPIDS 0 0 0 st4.childpids
    let i := r.1
    let st5 := { st4 with childpids := r.2.set i 0 }
    let st6 := st5.emit (.childNumber i children)
    let st7 := if i ≥ NMAXPIDS then st6.emit .ignoreChildren else st6
    let st8 ← unblock c.unblockErr st7
    pure (true, st8)

/-! ## The signal handler -/

/-- The loop of `handler`:
`for (int i = 0; i < NMAXPIDS && childpids[i]; ++i) if (0 > kill(childpids[i], signo)) perror(...)`.
The first argument bounds the number of iterations. -/
def forward (kill : Int → Int → Option Int) (signo : Int) : Nat → Nat → State → State
  | 0, _, st => st
  | fuel + 1, i, st =>
    if i < NMAXPIDS ∧ st.childpids.getD i 0 ≠ 0 then
      let pid := st.childpids.getD i 0
      let st1 := st.emit (.kill pid signo)
      let st2 := (match kill pid signo with
        | some e => { st1 with errno := e }.emit .perrorKill
        | none => st1)
      forward kill signo fuel (i + 1) st2
    else st

/-- Function `handler`. -/
def handler (kill : Int → Int → Option Int) (signo : Int) (st : State) : State :=
  let st1 := st.emit (.handleSignal signo)
  if signo ≠ SIGCHLD then forward kill signo NMAXPIDS 0 st1 else st1

/-! ## Setup, main loop, main -/

/-- The loop of `setup` over the signal numbers `signo .. NSIG-1`. -/
def installAll (sigactionErr : Int → Option Int) : Nat → Int → State → State
  | 0, _, st => st
  | fuel + 1, signo, st =>
    if signo < (NSIG : Int) then
      let st1 := (match sigactionErr signo with
        | some e =>
          let st2 := { st with errno := e }
          if st2.errno ≠ EINVAL then st2.emit .perrorSigaction else st2
        | none => st)
      installAll sigactionErr fuel (signo + 1) st1
    else st

/-- Function `setup`. -/
def setup (child : Int) (sigactionErr : Int → Option Int) (prctlErr : Option Int)
    (st : State) : Except Halt State := do
  let st1 := { st with childpids := st.childpids.set 0 child }
  let st2 := installAll sigactionErr NSIG 1 st1
  match prctlErr with
  | some e => die { st2 with errno := e }
  | none => pure st2

/-- The call `pause()` of one pass: the handler runs for each signal delivered
while the process is suspended. -/
def pause (c : Cycle) (st : State) : State :=
  (c.signals.foldl (fun s signo => handler c.kill signo s) st).emit .pause

/-- The `while (active(procfs)) { pause(); errno = 0; }` of `loop`, one list
entry per call of `active`; when the list ends the process stays suspended. -/
def cycles : List Cycle → State → Except Halt State
  | [], _ => .error .suspended
  | c :: cs, st => do
    let r ← active c st
    if r.1 then
      let st1 := pause c r.2
      cycles cs { st1 with errno := 0 }
    else pure r.2

/-- Function `loop`; `siz` is what `snprintf` returned for the path. -/
def loop (siz : Int) (cs : List Cycle) (st : State) : Except Halt State :=
  if siz = -1 ∨ siz = PATH_MAX then die st
  else cycles cs st

/-- The answers of the operating system to `main` before the main loop. -/
structure Boot where
  argc : Int
  blockErr : Option Int
  fork : Int
  forkErr : Int
  childUnblockErr : Option Int
  execErr : Option Int
  sigactionErr : Int → Option Int
  prctlErr : Option Int
  unblockErr : Option Int
  pathSiz : Int

/-- Function `main`: how the process that runs it ends. -/
def main (b : Boot) (cs : List Cycle) : Halt :=
  if b.argc ≤ 1 then .exit EXIT_FAILURE
  else
    let run : Except Halt State := do
      let st1 ← block b.blockErr State.init
      if b.fork = 0 then
        let st2 ← unblock b.childUnblockErr st1
        match b.execErr with
        | none => .error .exec
        | some e => die { st2 with errno := e }
      else if b.fork = -1 then
        die { st1 with errno := b.forkErr }
      else
        let st2 ← setup b.fork b.sigactionErr b.prctlErr st1
        let st3 ← unblock b.unblockErr st2
        let st4 ← loop b.pathSiz cs st3
        die { st4 with errno := st4.lastexitcode }
    match run with
    | .error h => h
    | .ok _ => .suspended

/-! ## Definitions used by the statements -/

/-- What one reaped status does to Last Exit Code. -/
def reapStep (v : Int) (s : Nat) : Int :=
  if WIFEXITED s || WIFSIGNALED s then (WEXITSTATUS s : Nat) else v

/-- The `kill(pid, signo)` calls recorded in an output, in order. -/
def killAttempts (log : List Event) : List (Int × Int) :=
  log.filterMap (fun e => match e with
    | .kill pid signo => some (pid, signo)
    | _ => none)

/-- The decimal notation of `p` as bytes, most significant digit first. -/
def decimal (p : Nat) : List Nat := (Nat.digits 10 p).reverse.map (fun d => d + 48)

/-- A source text: each identifier in decimal notation, followed by its
delimiter. -/
def render : List (Nat × List Nat) → List Nat
  | [] => []
  | (p, d) :: r => decimal p ++ d ++ render r

/-- The text of `/proc/<pid>/task/<tid>/children`: each identifier in decimal
notation followed by one space. -/
def procfsChildren (pids : List Nat) : List Nat :=
  render (pids.map (fun p => (p, [32])))

/-- The registry that `active` leaves when the source was read: the parse loop,
then `childpids[i] = 0`. -/
def registryAfter (children : List Nat) (childpids : List Int) : List Int :=
  let r := parseLoop children (children.length - 1) NMAXPIDS 0 0 0 childpids
  r.2.set r.1 0

/-- A token as the loop can read it: a positive identifier that fits
`unsigned long`, followed by a non-empty run of white space. -/
def tokenOk (t : Nat × List Nat) : Prop :=
  0 < t.1 ∧ t.1 ≤ ULONG_MAX ∧ t.2 ≠ [] ∧ ∀ c ∈ t.2, isspace c = true

/-- A pass in which no call fails, no status is pending and no signal
arrives; only the answer of `read` is given. -/
def quietCycle (r : ReadRes) : Cycle :=
  { blockErr := none, waits := [], openErr := none, read := r, unblockErr := none,
    signals := [], kill := fun _ _ => none }

/-- The registry a run of `active` leaves, when it returns. -/
def registryOf (r : Except Halt (Bool × State)) : Option (List Int) :=
  r.toOption.map (fun x => x.2.childpids)

/-- The identifiers `10, 11, .., 10 + n - 1`. -/
def pidsFrom10 (n : Nat) : List Nat := (List.range n).map (fun k => k + 10)

/-- The source text of `pidsFrom10 n` written out byte by byte (two digits
and a space for each identifier, for `n ≤ 90`). -/
def twoDigitSource (n : Nat) : List Nat :=
  (List.range n).flatMap (fun k => [48 + (k + 10) / 10, 48 + (k + 10) % 10, 32])

/-- Whether a run of `active` printed the line `action=ignoreChildren`. -/
def degraded (r : Except Halt (Bool × State)) : Option Bool :=
  r.toOption.map (fun x => decide (Event.ignoreChildren ∈ x.2.log))

/-- The states after each of a series of calls of `active`, with the `pause()`
and `errno = 0` of `loop` between two calls; the series ends at a call that
does not return. -/
def passes : List Cycle → State → List State
  | [], _ => []
  | c :: cs, st =>
    match active c st with
    | .ok r => r.2 :: passes cs { pause c r.2 with errno := 0 }
    | .error _ => []

/-- No call of `sigprocmask` or `open` fails in the pass. -/
def Cycle.noFailure (c : Cycle) : Prop :=
  c.blockErr = none ∧ c.openErr = none ∧ c.unblockErr = none

/-- The `read` of the pass yields a text that begins with the identifier `q`
in decimal notation, followed by a byte that is no digit. -/
def Cycle.listsFirst (c : Cycle) (q : Nat) : Prop :=
  ∃ sep rest, c.read = .data (decimal q ++ sep :: rest) ∧ isdigit sep = false

/-- The number of calls of `pause()` recorded in an output. -/
def pauses (log : List Event) : Nat := log.count Event.pause

/-- Every call of `main` before the main loop succeeds, and `fork` returns the
identifier of the child to the supervisor. -/
def Boot.noFailure (b : Boot) : Prop :=
  1 < b.argc ∧ b.blockErr = none ∧ 0 < b.fork ∧ b.prctlErr = none ∧ b.unblockErr = none ∧
    b.pathSiz ≠ -1 ∧ b.pathSiz ≠ PATH_MAX

/-- A start of the supervisor with one argument, child `child`, in which no
call fails; `sigaction` refuses SIGKILL (9) and SIGSTOP (19) with `EINVAL`. -/
def okBoot (child : Int) : Boot :=
  { argc := 2, blockErr := none, fork := child, forkErr := 0, childUnblockErr := none,
    execErr := none,
    sigactionErr := fun signo => if signo = 9 ∨ signo = 19 then some EINVAL else none,
    prctlErr := none, unblockErr := none, pathSiz := 25 }

/-- The statuses reaped in a series of passes, in order: in each pass those of
the `waitpid` calls before the first one that returned no positive pid (0 when
live children have nothing to report, -1 when no child is left). -/
def reapedStatuses (cs : List Cycle) : List Nat :=
  (cs.flatMap (fun c => c.waits.takeWhile (fun w => decide (0 < w.1)))).map Prod.snd

/-! # Theorems -/

/-! ## Wait statuses: the macros in arithmetic form -/

theorem WEXITSTATUS_eq (s : Nat) : WEXITSTATUS s = s / 256 % 256 := by
  have h1 : (s &&& 0xff00) >>> 8 = (s >>> 8) &&& (2 ^ 8 - 1) := by
    apply Nat.eq_of_testBit_eq
    intro j
    have h2 : Nat.testBit 0xff00 (8 + j) = Nat.testBit (2 ^ 8 - 1) j := by
      rw [← Nat.testBit_shiftRight]
      rfl
    simp only [Nat.testBit_shiftRight, Nat.testBit_and, h2]
  unfold WEXITSTATUS
  rw [h1, Nat.and_pow_two_sub_one_eq_mod, Nat.shiftRight_eq_div_pow]

theorem WTERMSIG_eq (s : Nat) : WTERMSIG s = s % 128 :=
  Nat.and_pow_two_sub_one_eq_mod s 7

theorem WIFEXITED_iff (s : Nat) : WIFEXITED s = true ↔ s % 128 = 0 := by
  simp [WIFEXITED, WTERMSIG_eq]

theorem WIFSTOPPED_iff (s : Nat) : WIFSTOPPED s = true ↔ s % 256 = 127 := by
  have h : s &&& 0xff = s % 256 := Nat.and_pow_two_sub_one_eq_mod s 8
  simp [WIFSTOPPED, h]

theorem WIFCONTINUED_iff (s : Nat) : WIFCONTINUED s = true ↔ s = 65535 := by
  simp [WIFCONTINUED]

theorem WIFSIGNALED_iff (s : Nat) : WIFSIGNALED s = true ↔ 1 ≤ s % 128 ∧ s % 128 ≤ 126 := by
  have h : s &&& 0x7f = s % 128 := Nat.and_pow_two_sub_one_eq_mod s 7
  have hd : ∀ x : Int, x >>> (1 : Nat) = x / 2 := by
    intro x
    have := Int.shiftRight_eq_div_pow x 1
    simpa using this
  have hlt : s % 128 < 128 := Nat.mod_lt _ (by norm_num)
  simp only [WIFSIGNALED, h, hd, decide_eq_true_eq, signedChar]
  have hm : (s % 128 + 1) % 256 = s % 128 + 1 := Nat.mod_eq_of_lt (by omega)
  rw [hm]
  split <;> omega

/-- A stop or continue status is neither an exit nor a kill status. -/
theorem stop_cont_not_term (s : Nat) (h : WIFSTOPPED s = true ∨ WIFCONTINUED s = true) :
    WIFEXITED s = false ∧ WIFSIGNALED s = false := by
  have h127 : s % 128 = 127 := by
    rcases h with h | h
    · rw [WIFSTOPPED_iff] at h; omega
    · rw [WIFCONTINUED_iff] at h; subst h; rfl
  constructor
  · rw [← Bool.not_eq_true, WIFEXITED_iff]; omega
  · rw [← Bool.not_eq_true, WIFSIGNALED_iff]; omega

/-! ## The reaper -/

theorem reap_lastexitcode (ws tail : List (Int × Nat)) (hpos : ∀ w ∈ ws, 0 < w.1)
    (htail : ∀ w ∈ tail.head?, w.1 ≤ 0) (st : State) :
    (reap (ws ++ tail) st).lastexitcode = (ws.map Prod.snd).foldl reapStep st.lastexitcode := by
  induction ws generalizing st with
  | nil =>
    cases tail with
    | nil => simp [reap]
    | cons t r =>
      have ht : t.1 ≤ 0 := htail t (by simp)
      obtain ⟨p, s⟩ := t
      have hp : ¬ (0 < p) := by simpa using ht
      simp only [List.nil_append, reap, hp, if_false, List.map_nil, List.foldl_nil]
      split <;> rfl
  | cons w ws ih =>
    obtain ⟨p, s⟩ := w
    have hp : 0 < p := hpos (p, s) (by simp)
    have hrest : ∀ w ∈ ws, 0 < w.1 := fun w hw => hpos w (by simp [hw])
    simp only [List.cons_append, reap, hp, if_true, List.map_cons, List.foldl_cons]
    by_cases hsc : (WIFSTOPPED s || WIFCONTINUED s) = true
    · have hnt := stop_cont_not_term s (by simpa using hsc)
      rw [if_pos hsc]
      exact (ih hrest _).trans (by simp [reapStep, hnt.1, hnt.2, State.emit])
    · rw [if_neg hsc]
      by_cases hit : (WIFEXITED s || WIFSIGNALED s) = true
      · rw [if_pos hit]
        exact (ih hrest _).trans (by simp [reapStep, hit, State.emit])
      · rw [if_neg hit]
        exact (ih hrest _).trans (by simp [reapStep, hit])

theorem foldl_reapStep_eq (ss : List Nat) (v : Int) :
    ss.foldl reapStep v =
      (match ss.reverse.find? (fun s => WIFEXITED s || WIFSIGNALED s) with
       | some s => ((WEXITSTATUS s : Nat) : Int)
       | none => v) := by
  induction ss using List.reverseRecOn with
  | nil => simp
  | append_singleton l a ih =>
    rw [List.foldl_append, List.reverse_append]
    simp only [List.foldl_cons, List.foldl_nil, List.reverse_cons, List.reverse_nil,
      List.nil_append, List.singleton_append, List.find?_cons]
    by_cases ha : (WIFEXITED a || WIFSIGNALED a) = true
    · simp [reapStep, ha]
    · simp only [reapStep, ha, if_false]
      rw [ih]
      simp [ha]

theorem reap_lastexitcode_congr (ws : List (Int × Nat)) (st1 st2 : State)
    (h : st1.lastexitcode = st2.lastexitcode) :
    (reap ws st1).lastexitcode = (reap ws st2).lastexitcode := by
  induction ws generalizing st1 st2 with
  | nil => simpa [reap] using h
  | cons w ws ih =>
    obtain ⟨p, s⟩ := w
    simp only [reap]
    split
    · split
      · exact ih _ _ (by simpa [State.emit] using h)
      · split
        · exact ih _ _ (by simp [State.emit])
        · exact ih _ _ h
    · split <;> simpa using h

theorem reap_skip_stop_cont (pre post : List (Int × Nat)) (pid : Int) (s : Nat) (st : State)
    (hpid : 0 < pid) (hs : WIFSTOPPED s = true ∨ WIFCONTINUED s = true) :
    (reap (pre ++ (pid, s) :: post) st).lastexitcode = (reap (pre ++ post) st).lastexitcode := by
  induction pre generalizing st with
  | nil =>
    have hsc : (WIFSTOPPED s || WIFCONTINUED s) = true := by simpa using hs
    simp only [List.nil_append, reap, hpid, if_true, hsc]
    exact reap_lastexitcode_congr _ _ _ (by simp [State.emit])
  | cons w pre ih =>
    obtain ⟨p, t⟩ := w
    simp only [List.cons_append, reap]
    split
    · split
      · exact ih _
      · split
        · exact ih _
        · exact ih _
    · rfl

/-- C4 (reaper bookkeeping).  Let `ws` be the results of the `waitpid` calls
that returned a positive pid, followed by `tail`, which is empty or starts
with a call returning a value that is not positive.  After `reap`, Last Exit
Code is `WEXITSTATUS` of the last status of `ws` that is an exit or a
signal-termination status, and the prior value when there is none; it is the
prior value when every status is a stop or continue status; dropping one stop
or continue status from any sequence leaves the result the same; and
`WEXITSTATUS` of the status of a normal exit with code `c` is `c`. -/
theorem reap_bookkeeping (st : State) (ws tail : List (Int × Nat))
    (hpos : ∀ w ∈ ws, 0 < w.1) (htail : ∀ w ∈ tail.head?, w.1 ≤ 0) :
    (reap (ws ++ tail) st).lastexitcode =
        (match (ws.map Prod.snd).reverse.find? (fun s => WIFEXITED s || WIFSIGNALED s) with
         | some s => ((WEXITSTATUS s : Nat) : Int)
         | none => st.lastexitcode)
    ∧ ((∀ w ∈ ws, WIFSTOPPED w.2 = true ∨ WIFCONTINUED w.2 = true) →
        (reap (ws ++ tail) st).lastexitcode = st.lastexitcode)
    ∧ (∀ (pre post : List (Int × Nat)) (pid : Int) (s : Nat), 0 < pid →
        (WIFSTOPPED s = true ∨ WIFCONTINUED s = true) →
        (reap (pre ++ (pid, s) :: post) st).lastexitcode = (reap (pre ++ post) st).lastexitcode)
    ∧ (∀ c : Nat, c < 256 → WIFEXITED (c * 256) = true ∧ WEXITSTATUS (c * 256) = c) := by
  have hmain := (reap_lastexitcode ws tail hpos htail st).trans (foldl_reapStep_eq _ _)
  refine ⟨hmain, ?_, ?_, ?_⟩
  · intro hall
    rw [hmain]
    have hnone : (ws.map Prod.snd).reverse.find? (fun s => WIFEXITED s || WIFSIGNALED s) = none := by
      rw [List.find?_eq_none]
      intro s hs
      rw [List.mem_reverse, List.mem_map] at hs
      obtain ⟨w, hw, rfl⟩ := hs
      have := stop_cont_not_term w.2 (hall w hw)
      simp [this.1, this.2]
    rw [hnone]
  · intro pre post pid s hpid hs
    exact reap_skip_stop_cont pre post pid s st hpid hs
  · intro c hc
    constructor
    · rw [WIFEXITED_iff]; omega
    · rw [WEXITSTATUS_eq]; omega

/-- C4 at a concrete run: a stop (status 0x137f), an exit with code 7 and a
continue are reaped, then `waitpid` returns 0; Last Exit Code is 7. -/
theorem reap_bookkeeping_witness :
    (reap ([(5, 0x137f), (6, 0x0700), (7, 0xffff)] ++ [(0, 0)]) State.init).lastexitcode = 7 := by
  have h := (reap_bookkeeping State.init [(5, 0x137f), (6, 0x0700), (7, 0xffff)] [(0, 0)]
    (by decide) (by decide)).1
  rw [h]
  decide

/-! ## The signal handler -/

theorem killAttempts_append (l1 l2 : List Event) :
    killAttempts (l1 ++ l2) = killAttempts l1 ++ killAttempts l2 := by
  simp [killAttempts, List.filterMap_append]

theorem forward_childpids (kill : Int → Int → Option Int) (signo : Int) (fuel i : Nat)
    (st : State) : (forward kill signo fuel i st).childpids = st.childpids := by
  induction fuel generalizing i st with
  | zero => rfl
  | succ n ih =>
    simp only [forward]
    split
    · rw [ih]
      cases kill (st.childpids.getD i 0) signo <;> simp [State.emit]
    · rfl

theorem getD_append_cons (pre r : List Int) (x : Int) :
    (pre ++ x :: r).getD pre.length 0 = x := by
  induction pre with
  | nil => rfl
  | cons a pre ih => simpa using ih

theorem forward_kills (kill : Int → Int → Option Int) (signo : Int) (ps : List Int) :
    ∀ (pre rest : List Int) (fuel : Nat) (st : State),
      st.childpids = pre ++ ps ++ 0 :: rest → (∀ p ∈ ps, p ≠ 0) →
      pre.length + ps.length ≤ NMAXPIDS → ps.length ≤ fuel →
      killAttempts (forward kill signo fuel pre.length st).log =
        killAttempts st.log ++ ps.map (fun p => (p, signo)) := by
  induction ps with
  | nil =>
    intro pre rest fuel st hreg _ _ _
    cases fuel with
    | zero => simp [forward]
    | succ n =>
      have h0 : st.childpids.getD pre.length 0 = 0 := by
        rw [hreg, List.append_nil]; exact getD_append_cons pre rest 0
      simp only [forward, h0]
      simp
  | cons p ps ih =>
    intro pre rest fuel st hreg hnz hlen hfuel
    cases fuel with
    | zero => simp at hfuel
    | succ n =>
      have hp : st.childpids.getD pre.length 0 = p := by
        rw [hreg, List.append_assoc]; exact getD_append_cons pre _ p
      have hpnz : p ≠ 0 := hnz p (by simp)
      have hi : pre.length < NMAXPIDS := by simp at hlen; omega
      simp only [forward, hp]
      rw [if_pos ⟨hi, hpnz⟩]
      have hlen2 : (pre ++ [p]).length = pre.length + 1 := by simp
      rw [← hlen2]
      have hreg2 : ∀ s : State, s.childpids = st.childpids →
          s.childpids = (pre ++ [p]) ++ ps ++ 0 :: rest := by
        intro s hs; rw [hs, hreg]; simp
      have hnz2 : ∀ q ∈ ps, q ≠ 0 := fun q hq => hnz q (by simp [hq])
      have hlen3 : (pre ++ [p]).length + ps.length ≤ NMAXPIDS := by
        simp at hlen ⊢; omega
      have hfuel2 : ps.length ≤ n := by simp at hfuel; omega
      cases hk : kill p signo with
      | none =>
        dsimp only
        rw [ih (pre ++ [p]) rest n (st.emit (.kill p signo)) (hreg2 _ rfl) hnz2 hlen3 hfuel2]
        simp [State.emit, killAttempts_append, killAttempts]
      | some e =>
        dsimp only
        refine (ih (pre ++ [p]) rest n _ (hreg2 _ (by rfl)) hnz2 hlen3 hfuel2).trans ?_
        simp [State.emit, killAttempts_append, killAttempts]

/-- C2 (forwarding correctness).  For a registry whose slots `0..k-1` hold the
non-zero identifiers `ps` (`k ≤ 64`) followed by the sentinel 0, and for any
answers `kill` of the system (failures included): `handler(S)` with
`S ≠ SIGCHLD` makes exactly the calls `kill(p, S)` for `p` in `ps`, in slot
order; `handler(SIGCHLD)` makes no call of `kill`; the handler leaves the
registry as it was. -/
theorem handler_forwards (kill : Int → Int → Option Int) (st : State) (ps rest : List Int)
    (signo : Int) (hreg : st.childpids = ps ++ 0 :: rest) (hnz : ∀ p ∈ ps, p ≠ 0)
    (hk : ps.length ≤ NMAXPIDS) :
    (signo ≠ SIGCHLD →
      killAttempts (handler kill signo st).log =
        killAttempts st.log ++ ps.map (fun p => (p, signo)))
    ∧ killAttempts (handler kill SIGCHLD st).log = killAttempts st.log
    ∧ (handler kill signo st).childpids = st.childpids := by
  refine ⟨?_, ?_, ?_⟩
  · intro hs
    have h := forward_kills kill signo ps [] rest NMAXPIDS (st.emit (.handleSignal signo))
      (by simpa [State.emit] using hreg) hnz (by simpa using hk) hk
    simp only [handler, if_pos hs]
    simpa [State.emit, killAttempts_append, killAttempts] using h
  · simp [handler, State.emit, killAttempts_append, killAttempts]
  · simp only [handler]
    split
    · rw [forward_childpids]; rfl
    · rfl

/-- C2 at a concrete registry: identifiers 100 and 101, every `kill` failing
with `ESRCH`; SIGTERM (15) is sent to both, in order. -/
theorem handler_forwards_witness :
    killAttempts (handler (fun _ _ => some 3) 15
      { State.init with childpids := [100, 101] ++ 0 :: List.replicate 62 0 }).log
      = [(100, 15), (101, 15)] :=
  (handler_forwards (fun _ _ => some 3) _ [100, 101] (List.replicate 62 0) 15 rfl
    (by decide) (by decide)).1 (by decide)

/-! ## `strtoul` on decimal tokens -/

theorem takeWhile_append_left {p : Nat → Bool} (l1 l2 : List Nat)
    (h1 : ∀ c ∈ l1, p c = true) (h2 : ∀ c ∈ l2.head?, p c = false) :
    (l1 ++ l2).takeWhile p = l1 := by
  induction l1 with
  | nil =>
    cases l2 with
    | nil => rfl
    | cons a l => simp [List.takeWhile_cons, h2 a (by simp)]
  | cons a l ih =>
    have ha : p a = true := h1 a (by simp)
    have hl : ∀ c ∈ l, p c = true := fun c hc => h1 c (by simp [hc])
    simp [List.takeWhile_cons, ha, ih hl]

theorem isdigit_not_isspace (c : Nat) (h : isdigit c = true) : isspace c = false := by
  simp only [isdigit, Bool.and_eq_true, decide_eq_true_eq] at h
  simp only [isspace, Bool.or_eq_false_iff, beq_eq_false_iff_ne, Bool.and_eq_false_imp,
    decide_eq_true_eq, decide_eq_false_iff_not]
  omega

theorem isspace_not_isdigit (c : Nat) (h : isspace c = true) : isdigit c = false := by
  cases hd : isdigit c with
  | false => rfl
  | true => rw [isdigit_not_isspace c hd] at h; cases h

theorem strtoul_token (ws ds rest : List Nat) (hws : ∀ c ∈ ws, isspace c = true)
    (hds : ∀ c ∈ ds, isdigit c = true) (hne : ds ≠ [])
    (hrest : ∀ c ∈ rest.head?, isdigit c = false) (hval : digitsValue ds ≤ ULONG_MAX) :
    strtoul (ws ++ (ds ++ rest)) = (digitsValue ds, ws.length + ds.length) := by
  obtain ⟨a, ds1, rfl⟩ := List.exists_cons_of_ne_nil hne
  have ha : isdigit a = true := hds a (by simp)
  have h1 : (ws ++ (a :: ds1 ++ rest)).takeWhile isspace = ws :=
    takeWhile_append_left ws _ hws (by
      intro c hc
      have : c = a := by simpa using hc.symm
      subst this
      exact isdigit_not_isspace c ha)
  have h2 : (a :: ds1 ++ rest).takeWhile isdigit = a :: ds1 :=
    takeWhile_append_left (a :: ds1) rest hds hrest
  have h45 : a ≠ 45 := by
    intro h; subst h; simp [isdigit] at ha
  have h43 : a ≠ 43 := by
    intro h; subst h; simp [isdigit] at ha
  have hnot : ¬ (digitsValue (a :: ds1) > ULONG_MAX) := by omega
  simp only [strtoul]
  rw [h1, List.drop_left]
  simp only [List.cons_append, List.head?_cons]
  have hk : (some a == some 43) = false := by simp [h43]
  have hn : (some a == some 45) = false := by simp [h45]
  have h2b : (a :: (ds1 ++ rest)).takeWhile isdigit = a :: ds1 := by simpa using h2
  simp only [hk, hn, Bool.or_self, Bool.false_eq_true, if_false, List.drop_zero, h2b]
  simp [hnot]

theorem strtoul_space (ws : List Nat) (hws : ∀ c ∈ ws, isspace c = true) :
    strtoul ws = (0, 0) := by
  have h1 : ws.takeWhile isspace = ws := by
    have := takeWhile_append_left ws [] hws (by simp)
    simpa using this
  simp [strtoul, h1]

theorem decimal_isdigit (p : Nat) : ∀ c ∈ decimal p, isdigit c = true := by
  intro c hc
  simp only [decimal, List.mem_map, List.mem_reverse] at hc
  obtain ⟨d, hd, rfl⟩ := hc
  have : d < 10 := Nat.digits_lt_base (by norm_num) hd
  simp only [isdigit, Bool.and_eq_true, decide_eq_true_eq]
  omega

theorem decimal_ne_nil (p : Nat) (hp : 0 < p) : decimal p ≠ [] := by
  simp only [decimal, ne_eq, List.map_eq_nil_iff, List.reverse_eq_nil_iff]
  exact Nat.digits_ne_nil_iff_ne_zero.mpr (by omega)

theorem digitsValue_decimal (p : Nat) : digitsValue (decimal p) = p := by
  have key : ∀ L : List Nat,
      digitsValue (L.reverse.map (fun d => d + 48)) = Nat.ofDigits 10 L := by
    intro L
    induction L with
    | nil => simp [digitsValue]
    | cons d L ih =>
      simp only [digitsValue, List.reverse_cons, List.map_append, List.map_cons, List.map_nil,
        List.foldl_append, List.foldl_cons, List.foldl_nil] at ih ⊢
      rw [ih, Nat.ofDigits_cons]
      simp
      ring
  rw [decimal, key, Nat.ofDigits_digits]

/-! ## The parse loop -/

theorem parseLoop_frame (children : List Nat) (stop : Nat) :
    ∀ (fuel ptr endp i : Nat) (pids : List Int),
      i ≤ (parseLoop children stop fuel ptr endp i pids).1 ∧
      (parseLoop children stop fuel ptr endp i pids).2.length = pids.length ∧
      (i ≤ NMAXPIDS → (parseLoop children stop fuel ptr endp i pids).1 ≤ NMAXPIDS) ∧
      ∀ j, j < i → (parseLoop children stop fuel ptr endp i pids).2[j]? = pids[j]? := by
  intro fuel
  induction fuel with
  | zero => intro ptr endp i pids; simp [parseLoop]
  | succ n ih =>
    intro ptr endp i pids
    simp only [parseLoop]
    split
    · rename_i hc
      obtain ⟨h1, h2, h3, h4⟩ := ih (ptr + (strtoul (children.drop ptr)).2)
        (ptr + (strtoul (children.drop ptr)).2) (i + 1)
        (pids.set i (toPid (strtoul (children.drop ptr)).1))
      refine ⟨by omega, by simpa using h2, fun _ => h3 (by omega), ?_⟩
      intro j hj
      rw [h4 j (by omega), List.getElem?_set_ne (by omega)]
    · simp

/-- Slot `i` of the registry after the loop and `childpids[i] = 0`: the value
the first iteration stored there, or the terminating 0 when the loop body did
not run. -/
theorem parseLoop_slot (children : List Nat) (stop fuel ptr endp i : Nat) (pids : List Int)
    (hi : i < pids.length) :
    ((parseLoop children stop fuel ptr endp i pids).2.set
        (parseLoop children stop fuel ptr endp i pids).1 0)[i]? =
      some (if 0 < fuel ∧ endp < stop ∧ i < NMAXPIDS
        then toPid (strtoul (children.drop ptr)).1 else 0) := by
  cases fuel with
  | zero => simp [parseLoop, hi]
  | succ n =>
    simp only [parseLoop]
    by_cases hc : endp < stop ∧ i < NMAXPIDS
    · rw [if_pos hc]
      obtain ⟨h1, _, _, h4⟩ := parseLoop_frame children stop n
        (ptr + (strtoul (children.drop ptr)).2) (ptr + (strtoul (children.drop ptr)).2) (i + 1)
        (pids.set i (toPid (strtoul (children.drop ptr)).1))
      rw [List.getElem?_set_ne (by omega), h4 i (by omega), List.getElem?_set_self hi]
      simp [hc]
    · rw [if_neg hc]
      simp [hi, hc]

theorem parseLoop_below (children : List Nat) (stop fuel ptr endp i : Nat) (pids : List Int)
    (j : Nat) (hj : j < i) :
    ((parseLoop children stop fuel ptr endp i pids).2.set
        (parseLoop children stop fuel ptr endp i pids).1 0)[j]? = pids[j]? := by
  obtain ⟨h1, _, _, h4⟩ := parseLoop_frame children stop fuel ptr endp i pids
  rw [List.getElem?_set_ne (by omega), h4 j hj]

theorem render_append (a b : List (Nat × List Nat)) : render (a ++ b) = render a ++ render b := by
  induction a with
  | nil => rfl
  | cons t a ih =>
    obtain ⟨p, d⟩ := t
    simp [render, ih]

theorem parseLoop_tokens (children : List Nat) (stop : Nat)
    (hstop : stop + 1 = children.length) (toks : List (Nat × List Nat)) :
    ∀ (pre d tail : List Nat) (fuel i : Nat) (pids : List Int),
      children = pre ++ (d ++ (render toks ++ tail)) →
      (∀ c ∈ d, isspace c = true) →
      (∀ t ∈ toks, tokenOk t) →
      NMAXPIDS ≤ fuel + i → i + toks.length < pids.length →
      (tail = [] ∨ i + toks.length = NMAXPIDS) → i + toks.length ≤ NMAXPIDS →
      (∀ j t, toks[j]? = some t →
        ((parseLoop children stop fuel pre.length pre.length i pids).2.set
          (parseLoop children stop fuel pre.length pre.length i pids).1 0)[i + j]?
          = some (toPid t.1)) ∧
      ((parseLoop children stop fuel pre.length pre.length i pids).2.set
          (parseLoop children stop fuel pre.length pre.length i pids).1 0)[i + toks.length]?
          = some 0 := by
  induction toks with
  | nil =>
    intro pre d tail fuel i pids hch hd _ hfuel hlen hend _
    refine ⟨by simp, ?_⟩
    simp only [List.length_nil, Nat.add_zero] at hlen hend ⊢
    rw [parseLoop_slot children stop fuel pre.length pre.length i pids hlen]
    rcases hend with h | h
    · subst h
      have hdrop : children.drop pre.length = d := by
        rw [hch]; simp [render]
      rw [hdrop, strtoul_space d hd]
      simp [toPid]
    · have : ¬ (0 < fuel ∧ pre.length < stop ∧ i < NMAXPIDS) := by omega
      simp [this]
  | cons t toks ih =>
    intro pre d tail fuel i pids hch hd htok hfuel hlen hend hcap
    obtain ⟨p, dl⟩ := t
    obtain ⟨hp0, hpmax, hdlne, hdl⟩ := htok (p, dl) (by simp)
    simp only [List.length_cons] at hlen hend hcap
    have hi : i < NMAXPIDS := by omega
    have hdec : decimal p ≠ [] := decimal_ne_nil p hp0
    have hdrop : children.drop pre.length =
        d ++ (decimal p ++ (dl ++ (render toks ++ tail))) := by
      rw [hch]; simp [render]
    have hst : strtoul (children.drop pre.length) = (p, d.length + (decimal p).length) := by
      rw [hdrop]
      have := strtoul_token d (decimal p) (dl ++ (render toks ++ tail)) hd (decimal_isdigit p)
        hdec (by
          obtain ⟨a, l, rfl⟩ := List.exists_cons_of_ne_nil hdlne
          intro c hc
          have : c = a := by simpa using hc.symm
          subst this
          exact isspace_not_isdigit c (hdl c (by simp)))
        (by rw [digitsValue_decimal]; exact hpmax)
      rw [this, digitsValue_decimal]
    have hlenc : children.length =
        pre.length + d.length + (decimal p).length + dl.length + (render toks ++ tail).length := by
      rw [hch]; simp [render]; omega
    have hdl1 : 1 ≤ dl.length := List.length_pos.mpr hdlne
    have hdec1 : 1 ≤ (decimal p).length := List.length_pos.mpr hdec
    have hlt : pre.length < stop := by omega
    obtain ⟨n, rfl⟩ : ∃ n, fuel = n + 1 := ⟨fuel - 1, by omega⟩
    have hslot := parseLoop_slot children stop (n + 1) pre.length pre.length i pids (by omega)
    rw [if_pos ⟨by omega, hlt, hi⟩, hst] at hslot
    have hstep : parseLoop children stop (n + 1) pre.length pre.length i pids =
        parseLoop children stop n (pre ++ d ++ decimal p).length (pre ++ d ++ decimal p).length
          (i + 1) (pids.set i (toPid p)) := by
      simp only [parseLoop, hst]
      rw [if_pos ⟨hlt, hi⟩]
      simp [Nat.add_assoc]
    obtain ⟨ih1, ih2⟩ := ih (pre ++ d ++ decimal p) dl tail n (i + 1) (pids.set i (toPid p))
      (by rw [hch]; simp [render]) hdl (fun t ht => htok t (by simp [ht])) (by omega)
      (by simp; omega) (hend.imp id (fun h => by omega)) (by omega)
    rw [← hstep] at ih1 ih2
    refine ⟨?_, ?_⟩
    · intro j t hj
      cases j with
      | zero =>
        simp only [List.getElem?_cons_zero, Option.some.injEq] at hj
        subst hj
        simpa using hslot
      | succ j =>
        simp only [List.getElem?_cons_succ] at hj
        have := ih1 j t hj
        rw [show i + (j + 1) = i + 1 + j by omega]
        exact this
    · rw [List.length_cons, show i + (toks.length + 1) = i + 1 + toks.length by omega]
      exact ih2

/-! ## Discovery -/

theorem reap_childpids (ws : List (Int × Nat)) (st : State) :
    (reap ws st).childpids = st.childpids := by
  induction ws generalizing st with
  | nil => rfl
  | cons w ws ih =>
    obtain ⟨p, s⟩ := w
    simp only [reap]
    split
    · split
      · rw [ih]; rfl
      · split
        · rw [ih]; rfl
        · rw [ih]
    · split <;> rfl

theorem siz_data (bytes : List Nat) (hne : bytes ≠ []) :
    ¬ (1 > (ReadRes.data bytes).siz) ∧
    (((ReadRes.data bytes).siz - 1).toNat = (bytes.take (CHILDREN_SIZE - 1)).length - 1) := by
  have h1 : 1 ≤ bytes.length := List.length_pos.mpr hne
  have h2 : 1 ≤ (bytes.take (CHILDREN_SIZE - 1)).length := by
    rw [List.length_take]
    simp only [CHILDREN_SIZE, NMAXPIDS]
    omega
  simp only [ReadRes.siz]
  omega

/-- A pass of `active` that reads data, no call failing. -/
theorem active_data (c : Cycle) (st : State) (bytes : List Nat) (hb : c.blockErr = none)
    (ho : c.openErr = none) (hu : c.unblockErr = none) (hr : c.read = .data bytes)
    (hne : bytes ≠ []) :
    active c st = .ok (true,
      if (parseLoop (bytes.take (CHILDREN_SIZE - 1)) ((bytes.take (CHILDREN_SIZE - 1)).length - 1)
            NMAXPIDS 0 0 0 st.childpids).1 ≥ NMAXPIDS
      then (({ reap c.waits st with
                childpids := registryAfter (bytes.take (CHILDREN_SIZE - 1)) st.childpids }.emit
              (.childNumber (parseLoop (bytes.take (CHILDREN_SIZE - 1))
                ((bytes.take (CHILDREN_SIZE - 1)).length - 1) NMAXPIDS 0 0 0 st.childpids).1
                (bytes.take (CHILDREN_SIZE - 1)))).emit .ignoreChildren)
      else ({ reap c.waits st with
                childpids := registryAfter (bytes.take (CHILDREN_SIZE - 1)) st.childpids }.emit
              (.childNumber (parseLoop (bytes.take (CHILDREN_SIZE - 1))
                ((bytes.take (CHILDREN_SIZE - 1)).length - 1) NMAXPIDS 0 0 0 st.childpids).1
                (bytes.take (CHILDREN_SIZE - 1))))) := by
  obtain ⟨hs1, hs2⟩ := siz_data bytes hne
  simp only [active, hb, ho, hu, hr, block, unblock, bind, Except.bind, pure, Except.pure,
    if_neg hs1, hs2, ReadRes.children, reap_childpids, registryAfter]

/-- A pass of `active` whose `read` returns less than one byte, no other call
failing. -/
theorem active_nodata (c : Cycle) (st : State) (hb : c.blockErr = none)
    (ho : c.openErr = none) (hu : c.unblockErr = none) (hs : 1 > c.read.siz) :
    active c st = .ok (false,
      (match c.read with
        | .fail e => { reap c.waits st with errno := e }
        | .data _ => reap c.waits st).emit .noChildren) := by
  simp only [active, hb, ho, hu, block, unblock, bind, Except.bind, pure, Except.pure,
    if_pos hs]

theorem toPid_of_lt (p : Nat) (h : p < 2 ^ 31) : toPid p = (p : Int) := by
  have hm : p % 2 ^ 32 = p := Nat.mod_eq_of_lt (by omega)
  simp only [toPid, hm]
  rw [if_pos h]

theorem registryAfter_length (children : List Nat) (pids : List Int) :
    (registryAfter children pids).length = pids.length := by
  simp only [registryAfter, List.length_set]
  exact (parseLoop_frame children _ NMAXPIDS 0 0 0 pids).2.1

/-- The registry after the parse loop has read a buffer that starts with at
most `NMAXPIDS` well-formed tokens; `tail` is what the buffer holds after
them, which the loop reaches only when the registry is full. -/
theorem registryAfter_tokens (toks : List (Nat × List Nat)) (tail : List Nat)
    (pids : List Int) (hne : toks ≠ []) (htok : ∀ t ∈ toks, tokenOk t)
    (hlen : pids.length = NMAXPIDS + 1)
    (hend : tail = [] ∨ toks.length = NMAXPIDS) (hcap : toks.length ≤ NMAXPIDS) :
    (∀ (j : Nat) (t : Nat × List Nat), toks[j]? = some t →
      (registryAfter (render toks ++ tail) pids)[j]? = some (toPid t.1)) ∧
    (registryAfter (render toks ++ tail) pids)[toks.length]? = some 0 := by
  have hpos : 1 ≤ (render toks ++ tail).length := by
    obtain ⟨t, r, rfl⟩ := List.exists_cons_of_ne_nil hne
    obtain ⟨p, d⟩ := t
    have := List.length_pos.mpr (decimal_ne_nil p (htok (p, d) (by simp)).1)
    simp [render]
    omega
  have h := parseLoop_tokens (render toks ++ tail) ((render toks ++ tail).length - 1)
    (by omega) toks [] [] tail NMAXPIDS 0 pids (by simp) (by simp) htok (by simp)
    (by omega) (by simpa using hend) (by simpa using hcap)
  simpa [registryAfter] using h

/-- The same, as an equation between lists, for identifiers that are `pid_t`
values. -/
theorem registryAfter_take (toks : List (Nat × List Nat)) (tail : List Nat)
    (pids : List Int) (hne : toks ≠ []) (htok : ∀ t ∈ toks, tokenOk t)
    (hpid : ∀ t ∈ toks, t.1 < 2 ^ 31) (hlen : pids.length = NMAXPIDS + 1)
    (hend : tail = [] ∨ toks.length = NMAXPIDS) (hcap : toks.length ≤ NMAXPIDS) :
    (registryAfter (render toks ++ tail) pids).take toks.length
        = toks.map (fun t => (t.1 : Int)) ∧
    (registryAfter (render toks ++ tail) pids)[toks.length]? = some 0 := by
  obtain ⟨h1, h2⟩ := registryAfter_tokens toks tail pids hne htok hlen hend hcap
  refine ⟨?_, h2⟩
  apply List.ext_getElem?
  intro n
  rw [List.getElem?_take, List.getElem?_map]
  by_cases hn : n < toks.length
  · rw [if_pos hn]
    have ht : toks[n]? = some toks[n] := List.getElem?_eq_getElem hn
    rw [h1 n _ ht, ht, toPid_of_lt _ (hpid _ (List.getElem_mem _))]
    rfl
  · rw [if_neg hn, List.getElem?_eq_none (by omega)]
    rfl

theorem active_data_registry (c : Cycle) (st : State) (bytes : List Nat)
    (hb : c.blockErr = none) (ho : c.openErr = none) (hu : c.unblockErr = none)
    (hr : c.read = .data bytes) (hne : bytes ≠ []) :
    ∃ st1, active c st = .ok (true, st1) ∧
      st1.childpids = registryAfter (bytes.take (CHILDREN_SIZE - 1)) st.childpids ∧
      st1.lastexitcode = (reap c.waits st).lastexitcode := by
  rw [active_data c st bytes hb ho hu hr hne]
  split
  · exact ⟨_, rfl, rfl, rfl⟩
  · exact ⟨_, rfl, rfl, rfl⟩

/-! ## C8: delimiters -/

/-- C8, as stated, fails.  The buffer holds `12,34 ` (bytes 49 50 44 51 52 32),
two identifiers delimited by a comma and a space.  The first `strtoul` stops
at the comma, every later one converts nothing: slot 0 gets 12, slot 1 gets 0
and not 34. -/
theorem nondigit_delimiter_counterexample :
    isdigit 44 = false ∧ isdigit 32 = false ∧
    strtoul [44, 51, 52, 32] = (0, 0) ∧
    (registryAfter [49, 50, 44, 51, 52, 32] State.init.childpids).take 3 = [12, 0, 0] ∧
    (registryAfter [49, 50, 44, 51, 52, 32] State.init.childpids).take 2 ≠ [12, 34] ∧
    (registryOf (active (quietCycle (.data [49, 50, 44, 51, 52, 32])) State.init)).map
      (fun l => l.take 3) = some [12, 0, 0] := by
  refine ⟨by decide, by decide, by decide, by decide, by decide, by decide⟩

/-- C8, amended: the delimiters are white space.  For a buffer made of `K ≥ 1`
positive identifiers (values of `pid_t`), each followed by one or more
white-space bytes, the parse loop and the store after it leave the first
`min K 64` identifiers, in source order, in slots `0 .. min K 64 - 1` and 0
in slot `min K 64`; and `active` leaves that registry in every pass without a
failing call that reads such a text of at most 2047 bytes. -/
theorem parse_whitespace_delimited (toks : List (Nat × List Nat)) (childpids : List Int)
    (hne : toks ≠ []) (hreg : childpids.length = NMAXPIDS + 1)
    (htok : ∀ t ∈ toks, 0 < t.1 ∧ t.1 < 2 ^ 31 ∧ t.2 ≠ [] ∧ ∀ c ∈ t.2, isspace c = true) :
    (registryAfter (render toks) childpids).take (min toks.length NMAXPIDS)
        = (toks.take NMAXPIDS).map (fun t => (t.1 : Int)) ∧
    (registryAfter (render toks) childpids)[min toks.length NMAXPIDS]? = some 0 ∧
    (∀ (c : Cycle) (st : State), c.blockErr = none → c.openErr = none →
      c.unblockErr = none → c.read = .data (render toks) →
      (render toks).length ≤ CHILDREN_SIZE - 1 → st.childpids = childpids →
      registryOf (active c st) = some (registryAfter (render toks) childpids)) := by
  have hok : ∀ t ∈ toks.take NMAXPIDS, tokenOk t := by
    intro t ht
    obtain ⟨h1, h2, h3, h4⟩ := htok t (List.mem_of_mem_take ht)
    exact ⟨h1, by simp only [ULONG_MAX]; omega, h3, h4⟩
  have hpid : ∀ t ∈ toks.take NMAXPIDS, t.1 < 2 ^ 31 :=
    fun t ht => (htok t (List.mem_of_mem_take ht)).2.1
  have hne2 : toks.take NMAXPIDS ≠ [] := by
    obtain ⟨t, r, rfl⟩ := List.exists_cons_of_ne_nil hne
    simp [NMAXPIDS]
  have hlen : (toks.take NMAXPIDS).length = min toks.length NMAXPIDS := by
    rw [List.length_take, Nat.min_comm]
  have hsplit : render toks = render (toks.take NMAXPIDS) ++ render (toks.drop NMAXPIDS) := by
    rw [← render_append, List.take_append_drop]
  have hend : render (toks.drop NMAXPIDS) = [] ∨ (toks.take NMAXPIDS).length = NMAXPIDS := by
    by_cases h : toks.length ≤ NMAXPIDS
    · left; rw [List.drop_of_length_le h]; rfl
    · right; rw [hlen]; omega
  obtain ⟨h1, h2⟩ := registryAfter_take (toks.take NMAXPIDS) (render (toks.drop NMAXPIDS))
    childpids hne2 hok hpid hreg hend (by rw [hlen]; omega)
  rw [← hsplit, hlen] at h1 h2
  refine ⟨h1, h2, ?_⟩
  intro c st hb ho hu hr hfit hst
  have hne3 : render toks ≠ [] := by
    obtain ⟨t, r, rfl⟩ := List.exists_cons_of_ne_nil hne
    obtain ⟨p, d⟩ := t
    have := decimal_ne_nil p (htok (p, d) (by simp)).1
    simp [render, this]
  obtain ⟨st1, ha, hc, _⟩ := active_data_registry c st (render toks) hb ho hu hr hne3
  rw [ha, List.take_of_length_le hfit, hst] at *
  simp [registryOf, Except.toOption, hc]

/-- C8 amended, at a concrete buffer: 12, tab and space, 34, newline. -/
theorem parse_whitespace_delimited_witness :
    (registryAfter (render [(12, [9, 32]), (34, [10])]) State.init.childpids).take
        (min [(12, [9, 32]), (34, [10])].length NMAXPIDS)
      = ([(12, [9, 32]), (34, [10])].take NMAXPIDS).map (fun t => (t.1 : Int)) :=
  (parse_whitespace_delimited [(12, [9, 32]), (34, [10])] State.init.childpids
    (by decide) (by decide) (by decide)).1

/-! ## C3: capacity of the registry -/

theorem decimal_length_le (p : Nat) (hp : 0 < p) (h : p < 2 ^ 31) :
    (decimal p).length ≤ 10 := by
  have h1 := Nat.base_pow_length_digits_le 10 p (by norm_num) (by omega)
  have h2 : 10 ^ (Nat.digits 10 p).length < 10 ^ 11 := by
    have : 10 * p < 10 ^ 11 := by norm_num at h ⊢; omega
    omega
  have h3 : (Nat.digits 10 p).length < 11 := (Nat.pow_lt_pow_iff_right (by norm_num)).mp h2
  simp only [decimal, List.length_map, List.length_reverse]
  omega

theorem render_length_le (toks : List (Nat × List Nat))
    (h : ∀ t ∈ toks, (decimal t.1).length ≤ 10 ∧ t.2.length = 1) :
    (render toks).length ≤ 11 * toks.length := by
  induction toks with
  | nil => simp [render]
  | cons t toks ih =>
    obtain ⟨p, d⟩ := t
    have h1 := h (p, d) (by simp)
    have h2 := ih (fun t ht => h t (by simp [ht]))
    simp only [render, List.length_append, List.length_cons]
    simp only at h1
    omega

/-- C3 (capacity of the registry).  The source holds `K ≥ 1` identifiers in
the format of the system: each a positive value of `pid_t` (so of at most 10
digits) in decimal notation, followed by one space; the `read` takes the first
2047 bytes.  In a pass without a failing call `active` returns true, and the
registry then holds the first `min K 64` identifiers, in source order, in
slots `0 .. min K 64 - 1`, and 0 in slot `min K 64`. -/
theorem discovery_capacity (c : Cycle) (st : State) (pids : List Nat)
    (hb : c.blockErr = none) (ho : c.openErr = none) (hu : c.unblockErr = none)
    (hK : pids ≠ []) (hpid : ∀ p ∈ pids, 0 < p ∧ p < 2 ^ 31)
    (hr : c.read = .data (procfsChildren pids))
    (hreg : st.childpids.length = NMAXPIDS + 1) :
    ∃ st1, active c st = .ok (true, st1) ∧
      st1.childpids.take (min pids.length NMAXPIDS)
        = (pids.take NMAXPIDS).map (fun (p : Nat) => (p : Int)) ∧
      st1.childpids[min pids.length NMAXPIDS]? = some 0 ∧
      st1.childpids.length = NMAXPIDS + 1 := by
  have hne : procfsChildren pids ≠ [] := by
    obtain ⟨p, r, rfl⟩ := List.exists_cons_of_ne_nil hK
    have := decimal_ne_nil p (hpid p (by simp)).1
    simp [procfsChildren, render, this]
  obtain ⟨st1, ha, hc, _⟩ := active_data_registry c st (procfsChildren pids) hb ho hu hr hne
  refine ⟨st1, ha, ?_⟩
  rw [hc]
  -- the tokens and the part of the source that the buffer takes
  let toks : List (Nat × List Nat) := pids.map (fun p => (p, [32]))
  have htoks : ∀ t ∈ toks, 0 < t.1 ∧ t.1 < 2 ^ 31 ∧ t.2 = [32] := by
    intro t ht
    obtain ⟨p, hp, rfl⟩ := List.mem_map.mp ht
    exact ⟨(hpid p hp).1, (hpid p hp).2, rfl⟩
  have hok : ∀ t ∈ toks.take NMAXPIDS, tokenOk t := by
    intro t ht
    obtain ⟨h1, h2, h3⟩ := htoks t (List.mem_of_mem_take ht)
    refine ⟨h1, by simp only [ULONG_MAX]; omega, by rw [h3]; simp, ?_⟩
    rw [h3]; decide
  have hlt : ∀ t ∈ toks.take NMAXPIDS, t.1 < 2 ^ 31 :=
    fun t ht => (htoks t (List.mem_of_mem_take ht)).2.1
  have hne2 : toks.take NMAXPIDS ≠ [] := by
    obtain ⟨p, r, rfl⟩ := List.exists_cons_of_ne_nil hK
    simp [toks, NMAXPIDS]
  have hlen : (toks.take NMAXPIDS).length = min pids.length NMAXPIDS := by
    rw [List.length_take, Nat.min_comm]; simp [toks]
  have hL : (render (toks.take NMAXPIDS)).length ≤ CHILDREN_SIZE - 1 := by
    have h1 := render_length_le (toks.take NMAXPIDS) (by
      intro t ht
      obtain ⟨h1, h2, h3⟩ := htoks t (List.mem_of_mem_take ht)
      exact ⟨decimal_length_le t.1 h1 h2, by rw [h3]; rfl⟩)
    rw [hlen] at h1
    simp only [CHILDREN_SIZE, NMAXPIDS] at h1 ⊢
    omega
  have hbuf : (procfsChildren pids).take (CHILDREN_SIZE - 1) =
      render (toks.take NMAXPIDS) ++
        (render (toks.drop NMAXPIDS)).take
          (CHILDREN_SIZE - 1 - (render (toks.take NMAXPIDS)).length) := by
    have : procfsChildren pids = render (toks.take NMAXPIDS) ++ render (toks.drop NMAXPIDS) := by
      rw [← render_append, List.take_append_drop]; rfl
    rw [this, List.take_append_eq_append_take, List.take_of_length_le hL]
  have hend : (render (toks.drop NMAXPIDS)).take
        (CHILDREN_SIZE - 1 - (render (toks.take NMAXPIDS)).length) = [] ∨
      (toks.take NMAXPIDS).length = NMAXPIDS := by
    by_cases h : pids.length ≤ NMAXPIDS
    · left
      rw [List.drop_of_length_le (by simpa [toks] using h)]
      simp [render]
    · right; rw [hlen]; omega
  obtain ⟨h1, h2⟩ := registryAfter_take (toks.take NMAXPIDS) _ st.childpids hne2 hok hlt hreg
    hend (by rw [hlen]; omega)
  rw [← hbuf, hlen] at h1 h2
  refine ⟨?_, h2, by rw [registryAfter_length, hreg]⟩
  have hmap : toks.take NMAXPIDS = (pids.take NMAXPIDS).map (fun p => (p, [32])) := by
    simp only [toks, List.map_take]
  rw [h1, hmap, List.map_map]
  rfl

/-- C3 at a concrete source: `100 4242 ` gives the registry 100, 4242, 0. -/
theorem discovery_capacity_witness :
    ∃ st1, active (quietCycle (.data (procfsChildren [100, 4242]))) State.init = .ok (true, st1) ∧
      st1.childpids.take (min [100, 4242].length NMAXPIDS)
        = ([100, 4242].take NMAXPIDS).map (fun (p : Nat) => (p : Int)) ∧
      st1.childpids[min [100, 4242].length NMAXPIDS]? = some 0 ∧
      st1.childpids.length = NMAXPIDS + 1 :=
  discovery_capacity (quietCycle (.data (procfsChildren [100, 4242]))) State.init [100, 4242]
    rfl rfl rfl (by decide) (by decide) rfl (by decide)

/-! ## C7: the degradation line -/

theorem decimal_two_digit (p : Nat) (h1 : 10 ≤ p) (h2 : p < 100) :
    decimal p = [48 + p / 10, 48 + p % 10] := by
  have hd : Nat.digits 10 p = [p % 10, p / 10] := by
    rw [Nat.digits_def' (by norm_num) (by omega)]
    rw [Nat.digits_def' (by norm_num) (by omega)]
    have h3 : p / 10 / 10 = 0 := by omega
    have h4 : p / 10 % 10 = p / 10 := by omega
    rw [h3, h4]
    simp
  simp [decimal, hd, Nat.add_comm]

theorem procfsChildren_two_digit (l : List Nat) (h : ∀ k ∈ l, k < 90) :
    procfsChildren (l.map (fun k => k + 10)) =
      l.flatMap (fun k => [48 + (k + 10) / 10, 48 + (k + 10) % 10, 32]) := by
  induction l with
  | nil => rfl
  | cons k l ih =>
    have hk : k < 90 := h k (by simp)
    have ih2 := ih (fun j hj => h j (by simp [hj]))
    simp only [procfsChildren] at ih2
    simp only [procfsChildren, List.map_cons, render, List.flatMap_cons, ih2,
      decimal_two_digit (k + 10) (by omega) (by omega)]
    simp

theorem procfsChildren_pidsFrom10 (n : Nat) (h : n ≤ 90) :
    procfsChildren (pidsFrom10 n) = twoDigitSource n :=
  procfsChildren_two_digit (List.range n) (fun k hk => by
    have := List.mem_range.mp hk
    omega)

set_option maxRecDepth 100000 in
/-- C7 at the boundary.  With exactly 64 identifiers (`10 11 .. 73 `, each
followed by its space) `active` tracks all 64 and still prints the line
`action=ignoreChildren ... (>NMAXPIDS)`, since the test is `i >= NMAXPIDS`;
with 63 identifiers it does not print it, with 65 it does. -/
theorem degradation_at_capacity :
    (pidsFrom10 64).length = 64 ∧
    degraded (active (quietCycle (.data (procfsChildren (pidsFrom10 64)))) State.init)
      = some true ∧
    registryOf (active (quietCycle (.data (procfsChildren (pidsFrom10 64)))) State.init)
      = some ((pidsFrom10 64).map (fun (p : Nat) => (p : Int)) ++ [0]) ∧
    degraded (active (quietCycle (.data (procfsChildren (pidsFrom10 63)))) State.init)
      = some false ∧
    degraded (active (quietCycle (.data (procfsChildren (pidsFrom10 65)))) State.init)
      = some true := by
  rw [procfsChildren_pidsFrom10 64 (by norm_num), procfsChildren_pidsFrom10 63 (by norm_num),
    procfsChildren_pidsFrom10 65 (by norm_num)]
  refine ⟨by decide, by decide, by decide, by decide, by decide⟩

/-! ## C9: slot 0 of the registry -/

theorem handler_childpids (kill : Int → Int → Option Int) (signo : Int) (st : State) :
    (handler kill signo st).childpids = st.childpids := by
  simp only [handler]
  split
  · rw [forward_childpids]; rfl
  · rfl

theorem pause_childpids (c : Cycle) (st : State) : (pause c st).childpids = st.childpids := by
  have key : ∀ (l : List Int) (s : State),
      (l.foldl (fun s signo => handler c.kill signo s) s).childpids = s.childpids := by
    intro l
    induction l with
    | nil => intro s; rfl
    | cons a l ih => intro s; rw [List.foldl_cons, ih, handler_childpids]
  simp only [pause, State.emit]
  exact key _ _

/-- A pass that reads a text beginning with the identifier `q` stores `q` in
slot 0. -/
theorem active_slot0 (c : Cycle) (st : State) (q : Nat) (hq : 0 < q ∧ q < 2 ^ 31)
    (hok : c.noFailure) (hfirst : c.listsFirst q) (hreg : 0 < st.childpids.length) :
    ∃ st1, active c st = .ok (true, st1) ∧ st1.childpids[0]? = some (q : Int) ∧
      st1.childpids.length = st.childpids.length := by
  obtain ⟨hb, ho, hu⟩ := hok
  obtain ⟨sep, rest, hr, hsep⟩ := hfirst
  have hne : decimal q ++ sep :: rest ≠ [] := by simp
  obtain ⟨st1, ha, hc, _⟩ := active_data_registry c st _ hb ho hu hr hne
  refine ⟨st1, ha, ?_, by rw [hc, registryAfter_length]⟩
  have hdl := decimal_length_le q hq.1 hq.2
  have hd1 : 1 ≤ (decimal q).length := List.length_pos.mpr (decimal_ne_nil q hq.1)
  -- the buffer still begins with the identifier and its delimiter
  have hbuf : (decimal q ++ sep :: rest).take (CHILDREN_SIZE - 1) =
      decimal q ++ sep :: rest.take (CHILDREN_SIZE - 1 - (decimal q).length - 1) := by
    rw [List.take_append_eq_append_take, List.take_of_length_le (by
      simp only [CHILDREN_SIZE, NMAXPIDS]; omega)]
    have : CHILDREN_SIZE - 1 - (decimal q).length =
        (CHILDREN_SIZE - 1 - (decimal q).length - 1) + 1 := by
      simp only [CHILDREN_SIZE, NMAXPIDS]; omega
    rw [this, List.take_succ_cons]
    simp
  rw [hc, hbuf]
  have hst : strtoul (decimal q ++ sep :: rest.take (CHILDREN_SIZE - 1 - (decimal q).length - 1))
      = (q, (decimal q).length) := by
    have := strtoul_token [] (decimal q)
      (sep :: rest.take (CHILDREN_SIZE - 1 - (decimal q).length - 1)) (by simp)
      (decimal_isdigit q) (decimal_ne_nil q hq.1) (by simpa using hsep)
      (by rw [digitsValue_decimal]; simp only [ULONG_MAX]; omega)
    simpa [digitsValue_decimal] using this
  have hslot := parseLoop_slot
    (decimal q ++ sep :: rest.take (CHILDREN_SIZE - 1 - (decimal q).length - 1))
    ((decimal q ++ sep :: rest.take (CHILDREN_SIZE - 1 - (decimal q).length - 1)).length - 1)
    NMAXPIDS 0 0 0 st.childpids hreg
  have hcond : 0 < NMAXPIDS ∧
      0 < (decimal q ++ sep :: rest.take (CHILDREN_SIZE - 1 - (decimal q).length - 1)).length - 1
      ∧ 0 < NMAXPIDS := by
    refine ⟨by decide, ?_, by decide⟩
    simp only [List.length_append, List.length_cons]
    omega
  rw [if_pos hcond, List.drop_zero, hst, toPid_of_lt q hq.2] at hslot
  exact hslot

/-- C9, as stated, fails.  `setup(100)` stores 100 in slot 0.  Later the
source reads `200 ` (bytes 50 48 48 32): the first child is gone and an orphan
200 has been reparented.  After that pass of `active` slot 0 holds 200. -/
theorem slot0_overwritten_counterexample :
    (setup 100 (fun _ => none) none State.init).toOption.map (fun st => st.childpids.take 2)
      = some [100, 0] ∧
    ((setup 100 (fun _ => none) none State.init).toOption.bind (fun st =>
        registryOf (active (quietCycle (.data [50, 48, 48, 32])) st))).map (fun l => l.take 2)
      = some [200, 0] := by
  refine ⟨by decide, by decide⟩

theorem installAll_childpids (sigactionErr : Int → Option Int) (fuel : Nat) (signo : Int)
    (st : State) : (installAll sigactionErr fuel signo st).childpids = st.childpids := by
  induction fuel generalizing signo st with
  | zero => rfl
  | succ n ih =>
    simp only [installAll]
    split
    · rw [ih]
      cases sigactionErr signo with
      | none => rfl
      | some e =>
        dsimp only
        split <;> rfl
    · rfl

theorem setup_childpids (child : Int) (sigactionErr : Int → Option Int)
    (prctlErr : Option Int) (st0 st : State)
    (h : setup child sigactionErr prctlErr st0 = .ok st) :
    st.childpids = st0.childpids.set 0 child := by
  cases prctlErr with
  | some e => simp [setup, die, bind, Except.bind] at h
  | none =>
    simp only [setup, bind, Except.bind, pure, Except.pure, Except.ok.injEq] at h
    rw [← h, installAll_childpids]

theorem active_nodata_childpids (c : Cycle) (st : State) (hok : c.noFailure)
    (hs : 1 > c.read.siz) :
    ∃ st1, active c st = .ok (false, st1) ∧ st1.childpids = st.childpids ∧
      st1.lastexitcode = (reap c.waits st).lastexitcode := by
  obtain ⟨hb, ho, hu⟩ := hok
  rw [active_nodata c st hb ho hu hs]
  refine ⟨_, rfl, ?_, ?_⟩
  · cases c.read <;> simp [State.emit, reap_childpids]
  · cases c.read <;> simp [State.emit]

theorem passes_slot0 (child : Nat) (hchild : 0 < child ∧ child < 2 ^ 31) (cs : List Cycle) :
    ∀ st : State, st.childpids[0]? = some (child : Int) →
      (∀ c ∈ cs, c.noFailure ∧ (1 > c.read.siz ∨ c.listsFirst child)) →
      (passes cs st).length = cs.length ∧
      ∀ s ∈ passes cs st, s.childpids[0]? = some (child : Int) := by
  induction cs with
  | nil => intro st _ _; simp [passes]
  | cons c cs ih =>
    intro st h0 hcs
    obtain ⟨hok, hread⟩ := hcs c (by simp)
    have hrest : ∀ d ∈ cs, d.noFailure ∧ (1 > d.read.siz ∨ d.listsFirst child) :=
      fun d hd => hcs d (by simp [hd])
    have hstep : ∃ b st1, active c st = .ok (b, st1) ∧
        st1.childpids[0]? = some (child : Int) := by
      rcases hread with hs | hf
      · obtain ⟨st1, ha, hc, _⟩ := active_nodata_childpids c st hok hs
        exact ⟨false, st1, ha, by rw [hc]; exact h0⟩
      · have hlen : 0 < st.childpids.length := by
          by_contra hcon
          have : st.childpids[0]? = none := List.getElem?_eq_none (by omega)
          rw [this] at h0
          cases h0
        obtain ⟨st1, ha, hc, _⟩ := active_slot0 c st child hchild hok hf hlen
        exact ⟨true, st1, ha, hc⟩
    obtain ⟨b, st1, ha, h1⟩ := hstep
    have hnext := ih { pause c st1 with errno := 0 }
      (by
        have : ({ pause c st1 with errno := 0 } : State).childpids = st1.childpids :=
          pause_childpids c st1
        rw [this]; exact h1)
      hrest
    simp only [passes, ha, List.length_cons, List.mem_cons]
    refine ⟨by rw [hnext.1], ?_⟩
    intro s hs
    rcases hs with rfl | hs
    · exact h1
    · exact hnext.2 s hs

/-- C9, amended.  `setup(child)` stores `child` in slot 0.  A pass of `active`
whose `read` yields no data leaves the registry as it is, and a pass that reads
a text beginning with an identifier `q` stores `q` in slot 0.  So through any
series of passes without a failing call in which every text read lists `child`
first, every pass returns and slot 0 holds `child` after each of them. -/
theorem slot0_kept_while_listed_first (child : Nat) (hchild : 0 < child ∧ child < 2 ^ 31)
    (sigactionErr : Int → Option Int) (prctlErr : Option Int) (st0 st : State)
    (hreg : 0 < st0.childpids.length)
    (hsetup : setup (child : Int) sigactionErr prctlErr st0 = .ok st) (cs : List Cycle)
    (hcs : ∀ c ∈ cs, c.noFailure ∧ (1 > c.read.siz ∨ c.listsFirst child)) :
    st.childpids[0]? = some (child : Int) ∧
    (passes cs st).length = cs.length ∧
    (∀ s ∈ passes cs st, s.childpids[0]? = some (child : Int)) ∧
    (∀ (c : Cycle) (s : State) (q : Nat), 0 < q ∧ q < 2 ^ 31 → c.noFailure →
      c.listsFirst q → 0 < s.childpids.length →
      ∃ s1, active c s = .ok (true, s1) ∧ s1.childpids[0]? = some (q : Int)) ∧
    (∀ (c : Cycle) (s : State), c.noFailure → 1 > c.read.siz →
      ∃ s1, active c s = .ok (false, s1) ∧ s1.childpids = s.childpids) := by
  have h0 : st.childpids[0]? = some (child : Int) := by
    rw [setup_childpids _ _ _ _ _ hsetup, List.getElem?_set_self hreg]
  obtain ⟨h1, h2⟩ := passes_slot0 child hchild cs st h0 hcs
  refine ⟨h0, h1, h2, ?_, ?_⟩
  · intro c s q hq hok hf hlen
    obtain ⟨s1, ha, hc, _⟩ := active_slot0 c s q hq hok hf hlen
    exact ⟨s1, ha, hc⟩
  · intro c s hok hs
    obtain ⟨s1, ha, hc, _⟩ := active_nodata_childpids c s hok hs
    exact ⟨s1, ha, hc⟩

/-- C9 amended, at a concrete run: child 100; the source first reads `100 `,
then nothing. -/
theorem slot0_kept_while_listed_first_witness :
    (passes [quietCycle (.data (decimal 100 ++ 32 :: [])), quietCycle (.data [])]
      { State.init with childpids := State.init.childpids.set 0 100 }).length = 2 :=
  (slot0_kept_while_listed_first 100 (by decide) (fun _ => none) none State.init
    { State.init with childpids := State.init.childpids.set 0 100 } (by decide) rfl
    [quietCycle (.data (decimal 100 ++ 32 :: [])), quietCycle (.data [])]
    (by
      intro c hc
      simp only [List.mem_cons, List.mem_singleton, List.not_mem_nil, or_false] at hc
      rcases hc with rfl | rfl
      · exact ⟨⟨rfl, rfl, rfl⟩, Or.inr ⟨32, [], rfl, by decide⟩⟩
      · exact ⟨⟨rfl, rfl, rfl⟩, Or.inl (by decide)⟩)).2.1

/-! ## The main loop -/

theorem pauses_emit (st : State) (e : Event) :
    pauses (st.emit e).log = pauses st.log + (if e = Event.pause then 1 else 0) := by
  simp only [pauses, State.emit, List.count_append, List.count_singleton]
  by_cases h : e = Event.pause
  · simp [h]
  · have : (e == Event.pause) = false := by simpa using h
    simp [h, this]

theorem reap_pauses (ws : List (Int × Nat)) (st : State) :
    pauses (reap ws st).log = pauses st.log := by
  induction ws generalizing st with
  | nil => rfl
  | cons w ws ih =>
    obtain ⟨p, s⟩ := w
    simp only [reap]
    split
    · split
      · rw [ih, pauses_emit]; simp
      · split
        · rw [ih, pauses_emit]; simp [State.emit, pauses]
        · rw [ih]
    · split <;> rfl

theorem forward_pauses (kill : Int → Int → Option Int) (signo : Int) (fuel i : Nat)
    (st : State) : pauses (forward kill signo fuel i st).log = pauses st.log := by
  induction fuel generalizing i st with
  | zero => rfl
  | succ n ih =>
    simp only [forward]
    split
    · rw [ih]
      cases kill (st.childpids.getD i 0) signo with
      | none => dsimp only; rw [pauses_emit]; simp
      | some e =>
        dsimp only
        rw [pauses_emit]
        have : pauses ({ st.emit (Event.kill (st.childpids.getD i 0) signo) with errno := e } :
            State).log = pauses (st.emit (Event.kill (st.childpids.getD i 0) signo)).log := rfl
        rw [this, pauses_emit]; simp
    · rfl

theorem handler_pauses (kill : Int → Int → Option Int) (signo : Int) (st : State) :
    pauses (handler kill signo st).log = pauses st.log ∧
    (handler kill signo st).lastexitcode = st.lastexitcode := by
  have hl : ∀ (fuel i : Nat) (s : State),
      (forward kill signo fuel i s).lastexitcode = s.lastexitcode := by
    intro fuel
    induction fuel with
    | zero => intro i s; rfl
    | succ n ih =>
      intro i s
      simp only [forward]
      split
      · rw [ih]
        cases kill (s.childpids.getD i 0) signo <;> rfl
      · rfl
  simp only [handler]
  split
  · rw [forward_pauses, pauses_emit, hl]
    simp [State.emit]
  · rw [pauses_emit]; simp [State.emit]

theorem pause_effect (c : Cycle) (st : State) :
    pauses (pause c st).log = pauses st.log + 1 ∧
    (pause c st).lastexitcode = st.lastexitcode := by
  have key : ∀ (l : List Int) (s : State),
      pauses (l.foldl (fun s signo => handler c.kill signo s) s).log = pauses s.log ∧
      (l.foldl (fun s signo => handler c.kill signo s) s).lastexitcode = s.lastexitcode := by
    intro l
    induction l with
    | nil => intro s; exact ⟨rfl, rfl⟩
    | cons a l ih =>
      intro s
      rw [List.foldl_cons]
      obtain ⟨h1, h2⟩ := ih (handler c.kill a s)
      obtain ⟨h3, h4⟩ := handler_pauses c.kill a s
      exact ⟨h1.trans h3, h2.trans h4⟩
  obtain ⟨h1, h2⟩ := key c.signals st
  simp only [pause]
  rw [pauses_emit]
  exact ⟨by simp [h1], by simpa [State.emit] using h2⟩

theorem siz_lt_one_iff (r : ReadRes) : r.siz < 1 ↔ r.children = [] := by
  cases r with
  | fail e => simp [ReadRes.siz, ReadRes.children]
  | data bytes =>
    simp only [ReadRes.siz, ReadRes.children]
    rw [← List.length_eq_zero]
    omega

theorem data_of_one_le_siz (r : ReadRes) (h : 1 ≤ r.siz) :
    ∃ bytes, r = .data bytes ∧ bytes ≠ [] := by
  cases r with
  | fail e => simp [ReadRes.siz] at h
  | data bytes =>
    refine ⟨bytes, rfl, ?_⟩
    rintro rfl
    simp [ReadRes.siz] at h

/-- What a pass of `active` without a failing call returns and changes. -/
theorem active_returns (c : Cycle) (st : State) (hok : c.noFailure) :
    ∃ st1, active c st = .ok (decide (1 ≤ c.read.siz), st1) ∧
      st1.lastexitcode = (reap c.waits st).lastexitcode ∧
      pauses st1.log = pauses st.log := by
  by_cases hs : 1 ≤ c.read.siz
  · obtain ⟨bytes, hr, hne⟩ := data_of_one_le_siz c.read hs
    obtain ⟨hb, ho, hu⟩ := hok
    rw [active_data c st bytes hb ho hu hr hne]
    simp only [hs, decide_True]
    split
    · refine ⟨_, rfl, rfl, ?_⟩
      rw [pauses_emit, pauses_emit]
      simpa using reap_pauses c.waits st
    · refine ⟨_, rfl, rfl, ?_⟩
      rw [pauses_emit]
      simpa using reap_pauses c.waits st
  · have hs2 : 1 > c.read.siz := by omega
    obtain ⟨hb, ho, hu⟩ := hok
    rw [active_nodata c st hb ho hu hs2]
    simp only [hs, decide_False]
    refine ⟨_, rfl, ?_, ?_⟩
    · cases c.read <;> simp [State.emit]
    · rw [pauses_emit]
      cases c.read <;> simpa using reap_pauses c.waits st

/-- The loop over passes that all read data: it pauses after each and is
still suspended when the series ends. -/
theorem cycles_suspended (pre : List Cycle) :
    ∀ st : State, (∀ c ∈ pre, c.noFailure ∧ 1 ≤ c.read.siz) →
      cycles pre st = .error .suspended := by
  induction pre with
  | nil => intro st _; rfl
  | cons c pre ih =>
    intro st h
    obtain ⟨hok, hs⟩ := h c (by simp)
    obtain ⟨st1, ha, _, _⟩ := active_returns c st hok
    simp only [cycles, ha, bind, Except.bind, hs, decide_True, if_true]
    exact ih _ (fun d hd => h d (by simp [hd]))

/-- The loop over passes that read data, followed by a pass whose `read`
returns less than one byte: it returns at that pass, after one `pause()` for
each earlier pass; Last Exit Code is what the successive calls of `reap`
leave. -/
theorem cycles_run (last : Cycle) (post : List Cycle) (hlast : last.noFailure)
    (hsiz : last.read.siz < 1) (pre : List Cycle) :
    ∀ st : State, (∀ c ∈ pre, c.noFailure ∧ 1 ≤ c.read.siz) →
      ∃ st1, cycles (pre ++ last :: post) st = .ok st1 ∧
        pauses st1.log = pauses st.log + pre.length ∧
        st1.lastexitcode = (pre ++ [last]).foldl
          (fun v c => (reap c.waits { State.init with lastexitcode := v }).lastexitcode)
          st.lastexitcode := by
  induction pre with
  | nil =>
    intro st _
    obtain ⟨st1, ha, h1, h2⟩ := active_returns last st hlast
    have hd : decide (1 ≤ last.read.siz) = false := by simpa using hsiz
    rw [hd] at ha
    refine ⟨st1, ?_, by simpa using h2, ?_⟩
    · simp [cycles, ha, bind, Except.bind, pure, Except.pure]
    · simp only [List.nil_append, List.foldl_cons, List.foldl_nil]
      rw [h1]
      exact reap_lastexitcode_congr _ _ _ rfl
  | cons c pre ih =>
    intro st h
    obtain ⟨hok, hs⟩ := h c (by simp)
    obtain ⟨st1, ha, h1, h2⟩ := active_returns c st hok
    obtain ⟨h3, h4⟩ := pause_effect c st1
    obtain ⟨st2, hb, h5, h6⟩ := ih { pause c st1 with errno := 0 }
      (fun d hd => h d (by simp [hd]))
    refine ⟨st2, ?_, ?_, ?_⟩
    · simp only [List.cons_append, cycles, ha, bind, Except.bind, hs, decide_True, if_true]
      exact hb
    · rw [h5]
      have : pauses ({ pause c st1 with errno := 0 } : State).log = pauses (pause c st1).log := rfl
      rw [this, h3, h2, List.length_cons]
      omega
    · rw [h6]
      have : ({ pause c st1 with errno := 0 } : State).lastexitcode = (pause c st1).lastexitcode :=
        rfl
      rw [this, h4, h1, List.cons_append, List.foldl_cons]
      congr 1
      exact reap_lastexitcode_congr _ _ _ rfl

/-- The loop on passes whose calls all succeed, the `read` included: it
returns at the first pass that reads an empty source, after one `pause()` for
each earlier pass, and is suspended after any number of the earlier passes
alone. -/
theorem loop_on_successful_reads (siz : Int) (pre : List Cycle) (last : Cycle)
    (post : List Cycle) (st : State) (hsiz : siz ≠ -1 ∧ siz ≠ PATH_MAX)
    (hpre : ∀ c ∈ pre, c.noFailure ∧ ∃ b bs, c.read = .data (b :: bs))
    (hlast : last.noFailure ∧ last.read = .data []) :
    (∃ st1, loop siz (pre ++ last :: post) st = .ok st1 ∧
      pauses st1.log = pauses st.log + pre.length) ∧
    (∀ k, loop siz (pre.take k) st = .error .suspended) := by
  have hloop : ∀ cs, loop siz cs st = cycles cs st := by
    intro cs
    simp [loop, hsiz.1, hsiz.2]
  have hpre2 : ∀ c ∈ pre, c.noFailure ∧ 1 ≤ c.read.siz := by
    intro c hc
    obtain ⟨h1, b, bs, h2⟩ := hpre c hc
    refine ⟨h1, ?_⟩
    rw [h2]
    simp only [ReadRes.siz, CHILDREN_SIZE, NMAXPIDS]
    simp only [List.take_succ_cons, List.length_cons]
    omega
  have hlast2 : last.read.siz < 1 := by
    rw [hlast.2]
    simp [ReadRes.siz]
  refine ⟨?_, ?_⟩
  · obtain ⟨st1, h1, h2, _⟩ := cycles_run last post hlast.1 hlast2 pre st hpre2
    exact ⟨st1, by rw [hloop, h1], h2⟩
  · intro k
    rw [hloop]
    exact cycles_suspended _ st (fun c hc => hpre2 c (List.mem_of_mem_take hc))

set_option maxRecDepth 100000 in
/-- C6 on the code.  When every `read` succeeds the loop leaves at the first
empty source: two passes read `100 `, the third reads nothing, and `loop`
returns after two calls of `pause()`; on the two first passes alone it is
suspended.  But a `read` that fails (return value -1, `errno` `e`) also passes
the test `1 > siz`: `active` returns false and `loop` returns at that pass,
with no `pause()`, whatever the later passes would read.  With `ENOMEM` (12)
on the first `read`, while child 100 lives and the next `read` would list
`100 `, the supervisor leaves the loop at pass 1 and exits. -/
theorem loop_left_on_failed_read :
    (loop 25 [quietCycle (.data [49, 48, 48, 32]), quietCycle (.data [49, 48, 48, 32]),
        quietCycle (.data [])] State.init).toOption.map (fun st => pauses st.log) = some 2 ∧
    (loop 25 [quietCycle (.data [49, 48, 48, 32]), quietCycle (.data [49, 48, 48, 32])]
        State.init).toOption = none ∧
    (active (quietCycle (.data [49, 48, 48, 32])) State.init).toOption.map (fun r => r.1)
      = some true ∧
    (active (quietCycle (.fail 12)) State.init).toOption.map (fun r => r.1) = some false ∧
    (loop 25 [quietCycle (.fail 12), quietCycle (.data [49, 48, 48, 32])]
        State.init).toOption.map (fun st => pauses st.log) = some 0 ∧
    main (okBoot 100) [quietCycle (.fail 12), quietCycle (.data [49, 48, 48, 32])] = .exit 0 ∧
    (∀ (e : Int) (post : List Cycle) (st : State), ∃ st1,
      loop 25 (quietCycle (.fail e) :: post) st = .ok st1 ∧
      pauses st1.log = pauses st.log) := by
  refine ⟨by decide, by decide, by decide, by decide, by decide, by decide, ?_⟩
  intro e post st
  obtain ⟨st1, h1, h2, _⟩ := cycles_run (quietCycle (.fail e)) post ⟨rfl, rfl, rfl⟩
    (by simp [quietCycle, ReadRes.siz]) [] st (by simp)
  refine ⟨st1, ?_, by simpa using h2⟩
  have h25 : ¬ ((25 : Int) = -1 ∨ (25 : Int) = PATH_MAX) := by decide
  simp only [loop, h25, if_false]
  simpa using h1

/-! ## The exit status of the supervisor -/

theorem installAll_lastexitcode (sigactionErr : Int → Option Int) (fuel : Nat) (signo : Int)
    (st : State) : (installAll sigactionErr fuel signo st).lastexitcode = st.lastexitcode := by
  induction fuel generalizing signo st with
  | zero => rfl
  | succ n ih =>
    simp only [installAll]
    split
    · rw [ih]
      cases sigactionErr signo with
      | none => rfl
      | some e =>
        dsimp only
        split <;> rfl
    · rfl

/-- The run of `main` when no call fails and the loop ends: `exit` is called
with the negated Last Exit Code. -/
theorem main_run (b : Boot) (hb : b.noFailure) (pre : List Cycle) (last : Cycle)
    (post : List Cycle) (hpre : ∀ c ∈ pre, c.noFailure ∧ 1 ≤ c.read.siz)
    (hlast : last.noFailure ∧ last.read.siz < 1) :
    main b (pre ++ last :: post) = .exit (-((pre ++ [last]).foldl
      (fun v c => (reap c.waits { State.init with lastexitcode := v }).lastexitcode) 0)) := by
  obtain ⟨h1, h2, h3, h4, h5, h6, h7⟩ := hb
  have hargc : ¬ b.argc ≤ 1 := by omega
  have hf0 : ¬ b.fork = 0 := by omega
  have hf1 : ¬ b.fork = -1 := by omega
  obtain ⟨st1, hc, _, hl⟩ := cycles_run last post hlast.1 hlast.2 pre
    (installAll b.sigactionErr NSIG 1
      { State.init with childpids := State.init.childpids.set 0 b.fork }) hpre
  rw [installAll_lastexitcode] at hl
  simp only [main, hargc, if_false, h2, h4, h5, hf0, hf1, block, unblock, setup, loop, h6, h7,
    or_self, bind, Except.bind, pure, Except.pure, hc, die]
  rw [hl]
  rfl

theorem reap_takeWhile (ws : List (Int × Nat)) (st : State) :
    (reap ws st).lastexitcode =
      ((ws.takeWhile (fun w => decide (0 < w.1))).map Prod.snd).foldl reapStep
        st.lastexitcode := by
  have hpos : ∀ w ∈ ws.takeWhile (fun w => decide (0 < w.1)), 0 < w.1 := by
    intro w hw
    exact of_decide_eq_true
      (List.mem_takeWhile_imp (p := fun w : Int × Nat => decide (0 < w.1)) hw)
  have htail : ∀ w ∈ (ws.dropWhile (fun w => decide (0 < w.1))).head?, w.1 ≤ 0 := by
    intro w hw
    have h := List.head?_dropWhile_not (fun w : Int × Nat => decide (0 < w.1)) ws
    have hw2 : (ws.dropWhile (fun w => decide (0 < w.1))).head? = some w := by
      simpa using hw
    rw [hw2] at h
    have : ¬ (0 < w.1) := by simpa using h
    omega
  have h := reap_lastexitcode _ _ hpos htail st
  rwa [List.takeWhile_append_dropWhile] at h

theorem foldl_reap_eq (cs : List Cycle) (v : Int) :
    cs.foldl (fun v c => (reap c.waits { State.init with lastexitcode := v }).lastexitcode) v
      = (reapedStatuses cs).foldl reapStep v := by
  induction cs generalizing v with
  | nil => rfl
  | cons c cs ih =>
    rw [List.foldl_cons, reap_takeWhile, ih]
    simp [reapedStatuses, List.foldl_append]

theorem foldl_reapStep_skip (after : List Nat)
    (h : ∀ s ∈ after, WIFSTOPPED s = true ∨ WIFCONTINUED s = true) (v : Int) :
    after.foldl reapStep v = v := by
  induction after generalizing v with
  | nil => rfl
  | cons s after ih =>
    have hs := stop_cont_not_term s (h s (by simp))
    rw [List.foldl_cons, ih (fun t ht => h t (by simp [ht]))]
    simp [reapStep, hs.1, hs.2]

theorem signal_status (sig core : Nat) (hsig : 1 ≤ sig ∧ sig ≤ 126) (hcore : core ≤ 1) :
    WIFSTOPPED (sig + 128 * core) = false ∧ WIFCONTINUED (sig + 128 * core) = false ∧
    WIFSIGNALED (sig + 128 * core) = true ∧ WEXITSTATUS (sig + 128 * core) = 0 := by
  refine ⟨?_, ?_, ?_, ?_⟩
  · rw [← Bool.not_eq_true, WIFSTOPPED_iff]; omega
  · rw [← Bool.not_eq_true, WIFCONTINUED_iff]; omega
  · rw [WIFSIGNALED_iff]; omega
  · rw [WEXITSTATUS_eq]; omega

/-- C10 (a descendant killed by a signal is recorded as exit code 0).  A wait
status with signal number `sig` in `1..126` in the low 7 bits, core-dump flag
`core` in bit 7 and zero in bits 8..15 is a signal-termination status with
`WEXITSTATUS` 0, so `reap` sets Last Exit Code to 0, as it does for a normal
exit with code 0 (status 0).  Each pass may end its reaping with a `waitpid`
that returns 0 or -1.  When such a status is the last termination that the
supervisor reaps (only stop or continue reports follow it) and the loop ends,
`main` calls `exit(-0)`: the exit status is 0. -/
theorem signaled_recorded_as_zero (b : Boot) (hb : b.noFailure) (pre : List Cycle)
    (last : Cycle) (post : List Cycle) (hpre : ∀ c ∈ pre, c.noFailure ∧ 1 ≤ c.read.siz)
    (hlast : last.noFailure ∧ last.read.siz < 1)
    (sig core : Nat) (hsig : 1 ≤ sig ∧ sig ≤ 126) (hcore : core ≤ 1)
    (before after : List Nat)
    (hst : reapedStatuses (pre ++ [last]) = before ++ (sig + 128 * core) :: after)
    (hafter : ∀ s ∈ after, WIFSTOPPED s = true ∨ WIFCONTINUED s = true) :
    WIFSIGNALED (sig + 128 * core) = true ∧ WEXITSTATUS (sig + 128 * core) = 0 ∧
    (∀ (st : State) (pid : Int) (tail : List (Int × Nat)), 0 < pid →
      (∀ w ∈ tail.head?, w.1 ≤ 0) →
      (reap ((pid, sig + 128 * core) :: tail) st).lastexitcode = 0 ∧
      (reap ((pid, 0) :: tail) st).lastexitcode = 0) ∧
    main b (pre ++ last :: post) = .exit 0 ∧ exitStatus 0 = 0 := by
  obtain ⟨h1, h2, h3, h4⟩ := signal_status sig core hsig hcore
  refine ⟨h3, h4, ?_, ?_, rfl⟩
  · intro st pid tail hpid htail
    have ha := reap_lastexitcode [(pid, sig + 128 * core)] tail (by simpa using hpid) htail st
    have hb := reap_lastexitcode [(pid, 0)] tail (by simpa using hpid) htail st
    rw [List.singleton_append] at ha hb
    rw [ha, hb]
    constructor
    · simp [reapStep, h3, h4]
    · have : WIFEXITED 0 = true := by decide
      have h0 : WEXITSTATUS 0 = 0 := by decide
      simp [reapStep, this, h0]
  · rw [main_run b hb pre last post hpre hlast, foldl_reap_eq, hst, List.foldl_append,
      List.foldl_cons, foldl_reapStep_skip after hafter]
    simp [reapStep, h3, h4]

/-- C10 at a concrete run.  Pass 1: child 100 lives, `waitpid` returns 0, the
source reads `100 `.  Pass 2: child 100 has been killed by SIGKILL (status 9)
and is reaped, the next `waitpid` returns -1, the source is empty. -/
theorem signaled_recorded_as_zero_witness :
    main (okBoot 100) ([{ quietCycle (.data [49, 48, 48, 32]) with waits := [(0, 0)] }] ++
      { quietCycle (.data []) with waits := [(100, 9), (-1, 0)] } :: []) = .exit 0 :=
  (signaled_recorded_as_zero (okBoot 100)
    ⟨by decide, rfl, by decide, rfl, rfl, by decide, by decide⟩
    [{ quietCycle (.data [49, 48, 48, 32]) with waits := [(0, 0)] }]
    { quietCycle (.data []) with waits := [(100, 9), (-1, 0)] } []
    (by
      intro c hc
      simp only [List.mem_singleton] at hc
      subst hc
      exact ⟨⟨rfl, rfl, rfl⟩, by decide⟩)
    ⟨⟨rfl, rfl, rfl⟩, by decide⟩
    9 0 (by decide) (by decide) [] [] (by decide) (by simp)).2.2.2.1

/-! ## C1: the exit status after normal exits -/

set_option maxRecDepth 100000 in
/-- C1 on the code.  The sole descendant 100 exits with status 7 (wait status
0x0700) and is reaped; the next read of the source yields no data and the
loop ends.  Last Exit Code is 7 and `main` sets `errno` to it, but `die` calls
`exit(-e)`: the argument is -7 and the exit status is 249.  The same run with
any exit code `n` in `0..255` ends with `exit(-n)`, status `(256 - n) mod 256`. -/
theorem exit_status_negated :
    WIFEXITED 0x0700 = true ∧ WEXITSTATUS 0x0700 = 7 ∧
    main (okBoot 100) [quietCycle (.data [49, 48, 48, 32]),
        { quietCycle (.data []) with waits := [(100, 0x0700)] }] = .exit (-7) ∧
    exitStatus (-7) = 249 ∧
    (∀ n : Fin 256,
      main (okBoot 100) [quietCycle (.data [49, 48, 48, 32]),
        { quietCycle (.data []) with waits := [(100, n.val * 256)] }]
        = .exit (-((n.val : Nat) : Int)) ∧
      exitStatus (-((n.val : Nat) : Int)) = (((256 - n.val) % 256 : Nat) : Int)) := by
  refine ⟨by decide, by decide, by decide, by decide, ?_⟩
  intro n
  have hn := n.isLt
  constructor
  · have hrun := main_run (okBoot 100)
      ⟨by decide, rfl, by decide, rfl, rfl, by decide, by decide⟩
      [quietCycle (.data [49, 48, 48, 32])]
      { quietCycle (.data []) with waits := [(100, n.val * 256)] } []
      (by
        intro c hc
        simp only [List.mem_singleton] at hc
        subst hc
        exact ⟨⟨rfl, rfl, rfl⟩, by decide⟩)
      ⟨⟨rfl, rfl, rfl⟩, by simp [quietCycle, ReadRes.siz]⟩
    have hreap := reap_lastexitcode [(100, n.val * 256)] [] (by simp) (by simp)
      { State.init with lastexitcode := 0 }
    have hex : WIFEXITED (n.val * 256) = true := by rw [WIFEXITED_iff]; omega
    have hws : WEXITSTATUS (n.val * 256) = n.val := by rw [WEXITSTATUS_eq]; omega
    rw [List.append_nil] at hreap
    simp only [List.map_cons, List.map_nil, List.foldl_cons, List.foldl_nil, reapStep, hex,
      Bool.true_or, if_true, hws] at hreap
    simp only [List.singleton_append] at hrun
    rw [hrun]
    simp only [List.foldl_cons, List.foldl_nil]
    have h1 : (reap (quietCycle (.data [49, 48, 48, 32])).waits
        { State.init with lastexitcode := 0 }).lastexitcode = 0 := rfl
    rw [h1]
    exact congrArg (fun x => Halt.exit (-x)) hreap
  · simp only [exitStatus]
    omega

/-! ## C5: failures of `open` and `read` -/

set_option maxRecDepth 100000 in
/-- C5 on the code.  A failing `open` ends the process through `die` with
`exit(-e)`.  A failing `read` (return value -1, `errno` set to `e`) does not:
`-1` passes the test `1 > siz`, `active` prints `reason="no children"` and
returns false.  With `ENOMEM` (12) on the first read the supervisor of child
100 leaves the loop and exits with 0, not with -12. -/
theorem read_failure_not_fatal :
    (∀ (c : Cycle) (e : Int) (st : State),
      active { c with blockErr := none, openErr := some e } st = .error (.exit (-e))) ∧
    (∀ (c : Cycle) (e : Int) (st : State), ∃ st1,
      active { c with blockErr := none, openErr := none, unblockErr := none,
                      read := .fail e } st = .ok (false, st1)) ∧
    main (okBoot 100) [quietCycle (.fail 12)] = .exit 0 := by
  refine ⟨?_, ?_, by decide⟩
  · intro c e st
    simp [active, block, die, bind, Except.bind, pure, Except.pure]
  · intro c e st
    exact ⟨_, active_nodata _ st rfl rfl rfl (by simp [ReadRes.siz])⟩

end SigReap
